import Mathlib

/-!
Verification development for the synchronization propagation engine with
end-to-end-encrypted metadata management (Nextcloud-style desktop client).

The definitions below are a shallow embedding of the C++ sources:
* `FolderMetadata` and its operations (foldermetadata.cpp),
* the folder-user metadata update job state machine
  (updatee2eefolderusersmetadatajob.cpp),
* `PropagateLocalRemove` / `PropagateLocalRename` (propagatorjobs.cpp).

Modelling conventions:
* `QByteArray` is `List Nat`; an empty array is `[]`.
* SHA-256 (`calcSha256`) is modelled as an ideal (injective) hash,
  concretely `0 :: b`, which is executable and collision-free.
* RSA-OAEP wrapping (`encryptData` / `decryptData`) is modelled by a
  constructor carrying the public key and payload; decryption succeeds
  exactly when the account key matches, returning the payload.
* AES-GCM + gzip + base64 (`gZipEncryptAndBase64Encode` /
  `base64DecodeDecryptAndGzipUnZip`) is modelled by a structure carrying
  the key, the IV and the structured plaintext; decryption succeeds
  exactly when key and IV match.
* JSON documents are represented structurally (association lists for
  JSON objects), not as raw text: gzip, base64 and JSON printing/parsing
  are bijective on the values the code produces, so the structural level
  is where all the logic of the source lives.
* `EncryptionHelper::generateRandom` is modelled by passing the freshly
  generated bytes as an explicit argument.
-/

namespace Desktop

/-- Byte strings (`QByteArray`). -/
abbrev ByteArr := List Nat

/-- The constant `metadataKeySize = 16` from foldermetadata.cpp. -/
def metadataKeySize : Nat := 16

/-- `calcSha256`, modelled as an ideal injective hash (executable). -/
def calcSha256 (b : ByteArr) : ByteArr := 0 :: b

theorem calcSha256_injective : Function.Injective calcSha256 := by
  intro a b h
  simpa [calcSha256] using h

theorem calcSha256_ne_nil (b : ByteArr) : calcSha256 b ≠ [] := by
  simp [calcSha256]

/-- A `QSslCertificate`: it may be null, and a non-null certificate may
still fail to expose a public key.  Public keys are identified by a
natural number naming the key pair. -/
structure Cert where
  isNull : Bool
  pub : Option Nat
deriving DecidableEq, Repr

/-- `certificate.publicKey()` combined with the null checks of the source:
returns the usable public key, if any. -/
def Cert.publicKey (c : Cert) : Option Nat :=
  if c.isNull then none else c.pub

/-- Result of RSA-OAEP wrapping (`EncryptionHelper::encryptStringAsymmetric`):
either an empty byte array or a wrap of `data` under public key `pub`. -/
inductive AsymCipher where
  | empty
  | wrap (pub : Nat) (data : ByteArr)
deriving DecidableEq, Repr

/-- `FolderMetadata::encryptData(data, key)`: RSA-OAEP wrap under `pub`. -/
def encryptData (data : ByteArr) (pub : Nat) : AsymCipher := .wrap pub data

/-- `FolderMetadata::decryptData`: decrypt with the account's private key
(identified by `accountPub`); returns `[]` on failure, as the source
returns an empty `QByteArray`. -/
def decryptData (accountPub : Nat) (c : AsymCipher) : ByteArr :=
  match c with
  | .empty => []
  | .wrap p d => if p = accountPub then d else []

/-- One folder user (`FolderUser` in foldermetadata.h): user id, the
certificate PEM (modelled by the certificate value itself, PEM encoding
being faithful), and the wrapped metadata / filedrop keys. -/
structure FolderUser where
  userId : String
  certificatePem : Cert
  encryptedMetadataKey : AsymCipher
  encryptedFiledropKey : AsymCipher
deriving DecidableEq, Repr

/-- `QHash<QString, FolderUser>::insert` keyed by user id (replace or add). -/
def usersInsert (us : List FolderUser) (u : FolderUser) : List FolderUser :=
  if us.any (fun x => x.userId == u.userId) then
    us.map (fun x => if x.userId == u.userId then u else x)
  else us ++ [u]

/-- `QHash::remove` keyed by user id. -/
def usersRemove (us : List FolderUser) (uid : String) : List FolderUser :=
  us.filter (fun x => !(x.userId == uid))

/-- `QHash::contains` / `QHash::value` keyed by user id. -/
def usersLookup (us : List FolderUser) (uid : String) : Option FolderUser :=
  us.find? (fun x => x.userId == uid)

/-- `QSet<QByteArray>::insert` (no duplicates, keeps first insertion order). -/
def kinsert (s : List ByteArr) (c : ByteArr) : List ByteArr :=
  if s.contains c then s else s ++ [c]

/-- `QSet<QByteArray>::remove`. -/
def kremove (s : List ByteArr) (c : ByteArr) : List ByteArr :=
  s.filter (fun x => !(x == c))

/-- One per-file entry (`FolderMetadata::EncryptedFile`). -/
structure EncryptedFile where
  encryptedFilename : String
  originalFilename : String
  encryptionKey : ByteArr
  initializationVector : ByteArr
  authenticationTag : ByteArr
  mimetype : String
deriving DecidableEq, Repr

/-- The all-empty `EncryptedFile` (default-constructed). -/
def EncryptedFile.default : EncryptedFile :=
  { encryptedFilename := "", originalFilename := "", encryptionKey := []
  , initializationVector := [], authenticationTag := [], mimetype := "" }

/-- The JSON value produced by `convertFileToJsonObject`. -/
structure FileJson where
  key : ByteArr
  filename : String
  mimetype : String
  initializationVector : ByteArr
  authenticationTag : ByteArr
deriving DecidableEq, Repr

/-- A JSON object: association list with unique keys kept in insertion
order (`QJsonObject::insert` replaces an existing key). -/
def jinsert {α : Type} (o : List (String × α)) (k : String) (v : α) :
    List (String × α) :=
  if o.any (fun kv => kv.1 == k) then
    o.map (fun kv => if kv.1 == k then (k, v) else kv)
  else o ++ [(k, v)]

/-- The plaintext of the metadata ciphertext: the JSON document
`{files, folders, keyChecksums}` built in `encryptedMetadata` and parsed
in `setupExistingMetadata`.  An absent `keyChecksums` key reads back as
an empty array, so it is represented by `[]`. -/
structure CipherDoc where
  files : List (String × FileJson)
  folders : List (String × String)
  keyChecksums : List ByteArr
deriving DecidableEq, Repr

/-- The empty `CipherDoc` (what `QJsonDocument::fromJson` of undecryptable
bytes yields once all keys read back empty). -/
def CipherDoc.empty : CipherDoc := { files := [], folders := [], keyChecksums := [] }

/-- `base64(AES-GCM(gzip(json)))`: a symmetric ciphertext blob carrying key,
IV and structured plaintext. -/
structure SymCipher where
  key : ByteArr
  iv : ByteArr
  plain : CipherDoc
deriving DecidableEq, Repr

/-- The authentication tag produced by `gZipEncryptAndBase64Encode`
(a function of the encryption inputs). -/
def symTag (c : SymCipher) : ByteArr := 1 :: c.key ++ c.iv

/-- `FolderMetadata::gZipEncryptAndBase64Encode`. -/
def gZipEncryptAndBase64Encode (key : ByteArr) (doc : CipherDoc) (iv : ByteArr) :
    SymCipher :=
  { key := key, iv := iv, plain := doc }

/-- `FolderMetadata::base64DecodeDecryptAndGzipUnZip`: succeeds exactly when
key and IV match; `none` models the empty `QByteArray` result. -/
def base64DecodeDecryptAndGzipUnZip (key : ByteArr) (c : Option SymCipher)
    (iv : ByteArr) : Option CipherDoc :=
  match c with
  | none => none
  | some cc => if cc.key = key ∧ cc.iv = iv then some cc.plain else none

/-- The legacy (schema < 2.0) per-file encrypted JSON blob: decrypts under
`pass` to `{filename, key, mimetype}`. -/
structure LegacyEnc where
  pass : ByteArr
  filename : String
  key : ByteArr
  mimetype : String
deriving DecidableEq, Repr

/-- A legacy per-file entry of the `files` object of a sub-2.0 document. -/
structure LegacyFileEntry where
  authenticationTag : ByteArr
  initializationVector : ByteArr
  encrypted : Option LegacyEnc
deriving DecidableEq, Repr

/-- `decryptJsonObject` on a legacy file blob. -/
def decryptJsonObject (blob : Option LegacyEnc) (pass : ByteArr) :
    Option LegacyEnc :=
  match blob with
  | none => none
  | some e => if e.pass = pass then some e else none

/-- The `metadata` JSON object of a version ≥ 2.0 document. -/
structure MetadataObj where
  cipherText : Option SymCipher
  nonce : ByteArr
  authenticationTag : ByteArr
deriving DecidableEq, Repr

/-- The `filedrop` JSON object. -/
structure FiledropObj where
  cipherText : Option SymCipher
  nonce : ByteArr
  authenticationTag : ByteArr
deriving DecidableEq, Repr

/-- The parsed inner metadata document (the JSON found in
`ocs.data.meta-data`), with both the current (≥ 2.0) and the legacy fields.
`metadataObjVersion` is `metadata.version`, `docVersion` the top-level
`version` field. -/
structure MetaDoc where
  metadata : MetadataObj
  metadataObjVersion : Option ℚ
  docVersion : Option ℚ
  users : List FolderUser
  filedrop : Option FiledropObj
  legacyMetadataKey : Option AsymCipher
  legacyMetadataKeys : List (String × AsymCipher)
  legacyFiles : List (String × LegacyFileEntry)
  legacyChecksum : ByteArr
  legacyMetadataKeyText : ByteArr
deriving DecidableEq, Repr

/-- `RequiredMetadataVersion` (foldermetadata.h). -/
inductive RequiredMetadataVersion where
  | Version1
  | Version1_2
  | Version2_0
deriving DecidableEq, Repr

/-- The underlying integer of the `RequiredMetadataVersion` enumerator
(`static_cast<int>`). -/
def RequiredMetadataVersion.toIdx : RequiredMetadataVersion → Nat
  | .Version1 => 0
  | .Version1_2 => 1
  | .Version2_0 => 2

/-- `QJsonValue::toInt()`: a JSON number converts to an int only when it is
a whole number, otherwise the default value 0 is returned. -/
def jsonToInt (v : ℚ) : ℚ :=
  if v.den = 1 then v else 0

/-- The rational 1.2 (= 6/5), the schema version threshold, written as a
reduced fraction so that kernel evaluation never normalizes. -/
def ratSixFifths : ℚ := ⟨6, 5, by norm_num, by norm_num⟩

theorem ratSixFifths_eq : ratSixFifths = 6/5 := by
  have h1 : ((6 : ℚ)/5).num = 6 := by norm_num
  have h2 : ((6 : ℚ)/5).den = 5 := by norm_num
  refine Rat.ext ?_ ?_ <;> simp [ratSixFifths, h1, h2]

/-- The in-memory `FolderMetadata` object: account data (`_account`),
folder position and all fields of foldermetadata.h used by the claims. -/
structure FolderMetadata where
  accountDavUser : String
  accountPubKey : Nat
  accountMnemonic : ByteArr
  accountSkipChecksumValidation : Bool
  topLevelFolderPath : String
  requiredMetadataVersion : RequiredMetadataVersion
  versionFromMetadata : ℚ
  metadataKeyForEncryption : ByteArr
  metadataKeyForDecryption : ByteArr
  keyChecksums : List ByteArr
  folderUsers : List FolderUser
  files : List EncryptedFile
  fileDropKey : ByteArr
  fileDropCipherText : Option SymCipher
  fileDropMetadataNonce : ByteArr
  fileDropMetadataAuthTag : ByteArr
  metadataNonce : ByteArr
  migrationNeeded : Bool
  isMetadataSetupFlag : Bool
deriving DecidableEq, Repr

namespace FolderMetadata

/-- `FolderMetadata::isTopLevelFolder`. -/
def isTopLevelFolder (m : FolderMetadata) : Bool :=
  m.topLevelFolderPath == "/"

/-- `FolderMetadata::metadataVersion`: bucket `_versionFromMetadata` into
the version enumeration (thresholds 1.2 and 2.0). -/
def metadataVersion (m : FolderMetadata) : RequiredMetadataVersion :=
  if m.versionFromMetadata < ratSixFifths then .Version1
  else if m.versionFromMetadata < 2 then .Version1_2
  else .Version2_0

/-- `FolderMetadata::requiredMetadataVersionNumeric`. -/
def requiredMetadataVersionNumeric (m : FolderMetadata) : ℚ :=
  match m.requiredMetadataVersion with
  | .Version1 => 1
  | .Version1_2 => ratSixFifths
  | .Version2_0 => 2

/-- `FolderMetadata::verifyMetadataKey`. -/
def verifyMetadataKey (m : FolderMetadata) (metadataKey : ByteArr) : Bool :=
  if m.versionFromMetadata < 2 then true
  else if metadataKey.isEmpty || metadataKey.length < metadataKeySize then false
  else
    m.keyChecksums.contains (calcSha256 (metadataKey.take metadataKeySize))
      || m.keyChecksums.isEmpty

/-- `FolderMetadata::createNewMetadataKeyForEncryption`; the freshly
generated random key is the explicit argument `freshKey`. -/
def createNewMetadataKeyForEncryption (m : FolderMetadata) (freshKey : ByteArr) :
    FolderMetadata :=
  if !m.isTopLevelFolder then m
  else
    let cs :=
      if !m.metadataKeyForEncryption.isEmpty then
        kremove m.keyChecksums (calcSha256 m.metadataKeyForEncryption)
      else m.keyChecksums
    let cs2 := if !freshKey.isEmpty then kinsert cs (calcSha256 freshKey) else cs
    { m with metadataKeyForEncryption := freshKey, keyChecksums := cs2 }

/-- `FolderMetadata::updateUsersEncryptedMetadataKey`: re-wrap the current
encryption key for every stored user whose certificate yields a public
key; users with a null certificate or null public key are skipped. -/
def updateUsersEncryptedMetadataKey (m : FolderMetadata) : FolderMetadata :=
  if !m.isTopLevelFolder then m
  else if m.metadataKeyForEncryption.isEmpty then m
  else
    { m with folderUsers := m.folderUsers.map (fun fu =>
        match fu.certificatePem.publicKey with
        | none => fu
        | some pub =>
          { fu with encryptedMetadataKey := encryptData m.metadataKeyForEncryption pub }) }

/-- `FolderMetadata::addUser`. -/
def addUser (m : FolderMetadata) (userId : String) (certificate : Cert)
    (freshKey : ByteArr) : Bool × FolderMetadata :=
  if !m.isTopLevelFolder then (false, m)
  else if userId.isEmpty || certificate.isNull || certificate.pub.isNone then
    (false, m)
  else
    let m1 := m.createNewMetadataKeyForEncryption freshKey
    let newUser : FolderUser :=
      { userId := userId
      , certificatePem := certificate
      , encryptedMetadataKey :=
          encryptData m1.metadataKeyForEncryption (certificate.pub.getD 0)
      , encryptedFiledropKey := .empty }
    let m2 := { m1 with folderUsers := usersInsert m1.folderUsers newUser }
    (true, m2.updateUsersEncryptedMetadataKey)

/-- `FolderMetadata::removeUser`. -/
def removeUser (m : FolderMetadata) (userId : String) (freshKey : ByteArr) :
    Bool × FolderMetadata :=
  if !m.isTopLevelFolder then (false, m)
  else if userId.isEmpty then (false, m)
  else
    let m1 := m.createNewMetadataKeyForEncryption freshKey
    let m2 := { m1 with folderUsers := usersRemove m1.folderUsers userId }
    (true, m2.updateUsersEncryptedMetadataKey)

/-- `FolderMetadata::isFileDropPresent`. -/
def isFileDropPresent (m : FolderMetadata) : Bool :=
  m.fileDropCipherText.isSome

/-- `FolderMetadata::parseEncryptedFileFromJson`. -/
def parseEncryptedFileFromJson (encryptedFilename : String) (fj : FileJson) :
    EncryptedFile :=
  if fj.filename.isEmpty then EncryptedFile.default
  else
    { encryptedFilename := encryptedFilename
    , authenticationTag := fj.authenticationTag
    , initializationVector := fj.initializationVector
    , originalFilename := fj.filename
    , encryptionKey := fj.key
    , mimetype :=
        if fj.mimetype == "inode/directory" then "httpd/unix-directory"
        else fj.mimetype }

/-- `FolderMetadata::moveFromFileDropToFiles`. -/
def moveFromFileDropToFiles (m : FolderMetadata) : Bool × FolderMetadata :=
  if m.fileDropCipherText.isNone || m.metadataKeyForEncryption.isEmpty
      || m.metadataNonce.isEmpty then
    (false, m)
  else
    let cipherDoc :=
      (base64DecodeDecryptAndGzipUnZip m.metadataKeyForEncryption
        m.fileDropCipherText m.metadataNonce).getD CipherDoc.empty
    let fs1 := cipherDoc.files.foldl (fun fs kv =>
      let pf := parseEncryptedFileFromJson kv.1 kv.2
      if !pf.originalFilename.isEmpty then fs ++ [pf] else fs) m.files
    -- the `folders` loop of the source constructs entries but never
    -- appends them, so it has no effect on the state
    (true, { m with files := fs1, fileDropCipherText := none })

end FolderMetadata

/-- Emptiness of a wrapped-key byte array. -/
def asymIsEmpty : AsymCipher → Bool
  | .empty => true
  | .wrap _ _ => false

/-- `QString` contents as bytes (`toUtf8`). -/
def stringToBytes (s : String) : ByteArr := s.toList.map Char.toNat

/-- Ordered insertion (structural recursion, kernel-evaluable). -/
def insertSorted (s : String) : List String → List String
  | [] => [s]
  | x :: xs => if s ≤ x then s :: x :: xs else x :: insertSorted s xs

/-- `std::sort` of the encrypted filenames by `operator<`. -/
def sortStrings (l : List String) : List String := l.foldr insertSorted []

namespace FolderMetadata

/-- `FolderMetadata::computeMetadataKeyChecksum`: SHA-256 over the
mnemonic, the sorted encrypted filenames and the metadata key. -/
def computeMetadataKeyChecksum (m : FolderMetadata) (metadataKey : ByteArr) :
    ByteArr :=
  let sorted := sortStrings (m.files.map (fun f => f.encryptedFilename))
  calcSha256 (m.accountMnemonic
    ++ sorted.foldl (fun acc s => acc ++ stringToBytes s) []
    ++ metadataKey)

/-- `FolderMetadata::checkMetadataKeyChecksum`. -/
def checkMetadataKeyChecksum (m : FolderMetadata) (metadataKey checksum : ByteArr) :
    Bool :=
  m.computeMetadataKeyChecksum metadataKey == checksum

/-- `FolderMetadata::setupVersionFromExistingMetadata`: read
`metadata.version`, overridden by the document-level `version` field,
each through `QJsonValue::toInt`. -/
def setupVersionFromExistingMetadata (m : FolderMetadata) (doc : MetaDoc) :
    FolderMetadata :=
  let v := m.versionFromMetadata
  let v := match doc.metadataObjVersion with
    | some x => jsonToInt x
    | none => v
  let v := match doc.docVersion with
    | some x => jsonToInt x
    | none => v
  { m with versionFromMetadata := v }

/-- The legacy per-file parsing loop of
`setupExistingLegacyMetadataForMigration` (appends to the current files). -/
def parseLegacyFiles (m : FolderMetadata) (entries : List (String × LegacyFileEntry)) :
    List EncryptedFile :=
  entries.foldl (fun fs kv =>
    match decryptJsonObject kv.2.encrypted m.metadataKeyForDecryption with
    | none => fs
    | some dec =>
      if dec.filename.isEmpty then fs
      else fs ++ [{ encryptedFilename := kv.1
                  , authenticationTag := kv.2.authenticationTag
                  , initializationVector := kv.2.initializationVector
                  , originalFilename := dec.filename
                  , encryptionKey := dec.key
                  , mimetype :=
                      if dec.mimetype == "inode/directory" then "httpd/unix-directory"
                      else dec.mimetype }]) m.files

/-- Common tail of `setupExistingLegacyMetadataForMigration`: the
decryption-key check, encryption-key defaulting, file parsing, legacy
checksum validation and the migration flags. -/
def legacyFinish (m0 : FolderMetadata) (doc : MetaDoc) : FolderMetadata :=
  if m0.metadataKeyForDecryption.isEmpty then m0
  else
    let m1 :=
      if m0.metadataKeyForEncryption.isEmpty then
        { m0 with metadataKeyForEncryption := m0.metadataKeyForDecryption }
      else m0
    let m2 := { m1 with files := m1.parseLegacyFiles doc.legacyFiles }
    if !(m2.checkMetadataKeyChecksum doc.legacyMetadataKeyText doc.legacyChecksum)
        && decide (RequiredMetadataVersion.Version1_2.toIdx ≤ m2.metadataVersion.toIdx) then
      if !m2.accountSkipChecksumValidation then m2
      else { m2 with migrationNeeded := true, isMetadataSetupFlag := true }
    else { m2 with migrationNeeded := true, isMetadataSetupFlag := true }

/-- `FolderMetadata::setupExistingLegacyMetadataForMigration`. -/
def setupExistingLegacyMetadataForMigration (m0 : FolderMetadata) (doc : MetaDoc) :
    FolderMetadata :=
  let m1 := { m0 with metadataKeyForDecryption := ([] : ByteArr) }
  let m2 :=
    match doc.legacyMetadataKey with
    | none => m1
    | some w =>
      let d := decryptData m1.accountPubKey w
      if !d.isEmpty then { m1 with metadataKeyForDecryption := d } else m1
  if m2.metadataKeyForDecryption.isEmpty
      && decide (m2.metadataVersion.toIdx < m2.requiredMetadataVersion.toIdx) then
    if doc.legacyMetadataKeys.isEmpty then m2
    else
      let lastKey := ((doc.legacyMetadataKeys.map Prod.fst).getLast?).getD ""
      let m3 :=
        if !lastKey.isEmpty then
          match (doc.legacyMetadataKeys.find? (fun kv => kv.1 == lastKey)).map Prod.snd with
          | none => m2
          | some w =>
            if !(asymIsEmpty w) then
              let d := decryptData m2.accountPubKey w
              if !d.isEmpty then { m2 with metadataKeyForDecryption := d } else m2
            else m2
        else m2
      m3.legacyFinish doc
  else
    m2.legacyFinish doc

/-- The version ≥ 2.0 branch of `FolderMetadata::setupExistingMetadata`
(everything after the two version tests). -/
def setupCurrentMetadata (m0 : FolderMetadata) (doc : MetaDoc) : FolderMetadata :=
  let m1 := { m0 with
    fileDropCipherText := doc.filedrop.bind (fun f => f.cipherText)
    fileDropMetadataAuthTag := (doc.filedrop.map (fun f => f.authenticationTag)).getD []
    fileDropMetadataNonce := (doc.filedrop.map (fun f => f.nonce)).getD [] }
  let usersValid := (!m1.isTopLevelFolder && doc.users.isEmpty)
      || (m1.isTopLevelFolder && !doc.users.isEmpty)
  if !usersValid then m1
  else
    let m2 := { m1 with folderUsers := doc.users.foldl usersInsert m1.folderUsers }
    let m3 :=
      match usersLookup m2.folderUsers m2.accountDavUser with
      | some cu =>
        let k := decryptData m2.accountPubKey cu.encryptedMetadataKey
        { m2 with metadataKeyForEncryption := k
                , metadataKeyForDecryption := k
                , fileDropKey := decryptData m2.accountPubKey cu.encryptedFiledropKey }
      | none => m2
    if m3.metadataKeyForDecryption.isEmpty || m3.metadataKeyForEncryption.isEmpty then m3
    else
      let m4 := { m3 with metadataNonce := doc.metadata.nonce }
      match base64DecodeDecryptAndGzipUnZip m4.metadataKeyForDecryption
          doc.metadata.cipherText m4.metadataNonce with
      | none => m4
      | some cipherDoc =>
        let m5 :=
          if !cipherDoc.keyChecksums.isEmpty then { m4 with keyChecksums := ([] : List ByteArr) }
          else m4
        let newChecksums := cipherDoc.keyChecksums.foldl
          (fun s c => if !c.isEmpty then kinsert s c else s) m5.keyChecksums
        let m6 := { m5 with keyChecksums := newChecksums }
        if !m6.verifyMetadataKey m6.metadataKeyForDecryption then m6
        else
          let fs1 := cipherDoc.files.foldl (fun fs kv =>
            let pf := parseEncryptedFileFromJson kv.1 kv.2
            if !pf.originalFilename.isEmpty then fs ++ [pf] else fs) m6.files
          let fs2 := cipherDoc.folders.foldl (fun fs kv =>
            if !kv.2.isEmpty then
              fs ++ [{ EncryptedFile.default with
                         encryptedFilename := kv.1, originalFilename := kv.2 }]
            else fs) fs1
          { m6 with files := fs2 }

/-- `FolderMetadata::setupExistingMetadata`: version dispatch, then the
legacy or the current parsing path. -/
def setupExistingMetadata (m0 : FolderMetadata) (doc : MetaDoc) : FolderMetadata :=
  let m := m0.setupVersionFromExistingMetadata doc
  if m.metadataVersion.toIdx < RequiredMetadataVersion.Version1.toIdx then m
  else if m.metadataVersion.toIdx < RequiredMetadataVersion.Version2_0.toIdx then
    m.setupExistingLegacyMetadataForMigration doc
  else m.setupCurrentMetadata doc

/-- The directory test of `encryptedMetadata`: empty, `inode/directory`
or `httpd/unix-directory` mimetype. -/
def isDirMimetype (s : String) : Bool :=
  s.isEmpty || s == "inode/directory" || s == "httpd/unix-directory"

/-- `FolderMetadata::encryptedMetadata`: serialize the in-memory state to
a metadata document; `none` models the empty `QByteArray` failure result.
`iv` is the freshly generated initialization vector, `freshKey` the fresh
random key consumed if the legacy top-level rotation branch fires. -/
def encryptedMetadata (m0 : FolderMetadata) (iv freshKey : ByteArr) : Option MetaDoc :=
  let m := if m0.isTopLevelFolder && m0.folderUsers.isEmpty
      && decide (m0.metadataVersion.toIdx < RequiredMetadataVersion.Version2_0.toIdx) then
      m0.createNewMetadataKeyForEncryption freshKey
    else m0
  if m.metadataKeyForEncryption.isEmpty then none
  else
    let ff := m.files.foldl
      (fun (p : List (String × FileJson) × List (String × String)) f =>
        if isDirMimetype f.mimetype then
          (p.1, jinsert p.2 f.encryptedFilename f.originalFilename)
        else
          (jinsert p.1 f.encryptedFilename
            { key := f.encryptionKey
            , filename := f.originalFilename
            , mimetype := f.mimetype
            , initializationVector := f.initializationVector
            , authenticationTag := f.authenticationTag }, p.2))
      ([], [])
    let checksums := if m.isTopLevelFolder then m.keyChecksums else []
    let checksumsValid := (!m.isTopLevelFolder && checksums.isEmpty)
        || (m.isTopLevelFolder && !checksums.isEmpty)
    if !checksumsValid then none
    else
      let cipherDoc : CipherDoc :=
        { files := ff.1, folders := ff.2, keyChecksums := checksums }
      let enc := gZipEncryptAndBase64Encode m.metadataKeyForEncryption cipherDoc iv
      let userArr := if m.isTopLevelFolder then m.folderUsers else []
      let usersValid := (!m.isTopLevelFolder && userArr.isEmpty)
          || (m.isTopLevelFolder && !userArr.isEmpty)
      if !usersValid then none
      else some
        { metadata := { cipherText := some enc, nonce := iv
                      , authenticationTag := symTag enc }
        , metadataObjVersion := none
        , docVersion := some m.requiredMetadataVersionNumeric
        , users := userArr
        , filedrop :=
            match m.fileDropCipherText with
            | some c => some { cipherText := some c
                             , nonce := m.fileDropMetadataNonce
                             , authenticationTag := m.fileDropMetadataAuthTag }
            | none => none
        , legacyMetadataKey := none
        , legacyMetadataKeys := []
        , legacyFiles := []
        , legacyChecksum := []
        , legacyMetadataKeyText := [] }

/-- The freshly constructed `FolderMetadata` right before `setupMetadata`
runs: fields initialized from the account and the
`TopLevelFolderInitializationData` of the parsing constructor. -/
def initialState (davUser : String) (pubKey : Nat) (mnemonic : ByteArr)
    (skip : Bool) (reqVersion : RequiredMetadataVersion) (topLevelFolderPath : String)
    (keyForEncryption keyForDecryption : ByteArr) (checksums : List ByteArr) :
    FolderMetadata :=
  { accountDavUser := davUser
  , accountPubKey := pubKey
  , accountMnemonic := mnemonic
  , accountSkipChecksumValidation := skip
  , topLevelFolderPath := topLevelFolderPath
  , requiredMetadataVersion := reqVersion
  , versionFromMetadata := -1
  , metadataKeyForEncryption := keyForEncryption
  , metadataKeyForDecryption := keyForDecryption
  , keyChecksums := checksums
  , folderUsers := []
  , files := []
  , fileDropKey := []
  , fileDropCipherText := none
  , fileDropMetadataNonce := []
  , fileDropMetadataAuthTag := []
  , metadataNonce := []
  , migrationNeeded := false
  , isMetadataSetupFlag := false }

/-- Re-parsing a produced document on a fresh top-level `FolderMetadata`
object of the same account (the round-trip reader). -/
def reparse (M : FolderMetadata) (doc : MetaDoc) : FolderMetadata :=
  setupExistingMetadata
    (initialState M.accountDavUser M.accountPubKey M.accountMnemonic
      M.accountSkipChecksumValidation RequiredMetadataVersion.Version2_0 "/"
      [] [] []) doc

end FolderMetadata

/-!
## UpdateE2eeFolderUsersMetadataJob

State machine of updatee2eefolderusersmetadatajob.cpp from the metadata
upload onwards: `slotUpdateMetadataFinished`, `scheduleSubJobs`,
`slotSubJobFinished`, `unlockFolder` and `slotFolderUnlocked`.

The `EncryptedFolderMetadataHandler` is not among the sources; it is
modelled from the spec: `unlockFolder(success)` performs the server-side
unlock and emits `folderUnlocked` carrying the HTTP status of the unlock
request, which the environment supplies as a `folderUnlocked` event.
Sub-jobs are identified by numbers; `subJobFinished` events carry the
status code the running sub-job reported.
-/

/-- `UpdateE2eeFolderUsersMetadataJob::Operation`. -/
inductive Operation where
  | Add
  | Remove
  | ReEncrypt
  | Invalid
deriving DecidableEq, Repr

/-- Control phase of the job after the metadata upload was issued. -/
inductive JobPhase where
  | uploading
  | runningSubs
  | unlocking
  | finished
deriving DecidableEq, Repr

/-- Observable job state.  `startedCount` / `subFinishedCount` count
sub-job starts and sub-job finished signals; `unlockSuccessFlag` records
the `success` argument of the last `unlockFolder` call; `finishedCode`
the code of the job's own `finished` emission. -/
structure JobState where
  op : Operation
  phase : JobPhase
  subJobs : List Nat
  runningSub : Option Nat
  startedCount : Nat
  subFinishedCount : Nat
  unlockSuccessFlag : Option Bool
  finishedCode : Option Int
  subJobsScheduled : Bool
deriving DecidableEq, Repr

/-- `UpdateE2eeFolderUsersMetadataJob::unlockFolder(success)`: forwards to
the handler and waits for `folderUnlocked`. -/
def unlockFolder (s : JobState) (success : Bool) : JobState :=
  { s with phase := .unlocking, unlockSuccessFlag := some success }

/-- `emit finished(code, ...)`. -/
def emitFinished (s : JobState) (code : Int) : JobState :=
  { s with phase := .finished, finishedCode := some code }

/-- `UpdateE2eeFolderUsersMetadataJob::slotUpdateMetadataFinished`,
including the inlined `scheduleSubJobs` call on the 200 path.
`metadataValid` is the validity test of `scheduleSubJobs`; `dirsBelow`
are the directory records strictly below the folder's path found by
`getFilesBelowPath` (one sub-job each). -/
def slotUpdateMetadataFinished (s : JobState) (code : Int) (metadataValid : Bool)
    (dirsBelow : List Nat) : JobState :=
  if code ≠ 200 then
    if s.op = .Add ∨ s.op = .Remove then unlockFolder s false
    else emitFinished s code
  else
    if s.op = .Add ∨ s.op = .Remove then
      if !metadataValid then
        -- scheduleSubJobs unlocks with failure and returns no sub-jobs;
        -- the caller then sees an empty set and calls unlockFolder(true)
        unlockFolder (unlockFolder s false) true
      else if dirsBelow.isEmpty then
        unlockFolder { s with subJobs := dirsBelow, subJobsScheduled := true } true
      else
        { s with subJobs := dirsBelow, subJobsScheduled := true
               , phase := .runningSubs
               , runningSub := dirsBelow.getLast?
               , startedCount := s.startedCount + 1 }
    else emitFinished s 200

/-- `UpdateE2eeFolderUsersMetadataJob::slotSubJobFinished` (the finished
sub-job is the running one, i.e. the last of `_subJobs`). -/
def slotSubJobFinished (s : JobState) (code : Int) : JobState :=
  if s.phase ≠ .runningSubs then s
  else if code ≠ 200 then
    { unlockFolder s false with
        runningSub := none, subFinishedCount := s.subFinishedCount + 1 }
  else if s.subJobs.dropLast.isEmpty then
    { s with subJobs := s.subJobs.dropLast
           , subFinishedCount := s.subFinishedCount + 1
           , phase := .unlocking, unlockSuccessFlag := some true
           , runningSub := none }
  else
    { s with subJobs := s.subJobs.dropLast
           , subFinishedCount := s.subFinishedCount + 1
           , runningSub := s.subJobs.dropLast.getLast?
           , startedCount := s.startedCount + 1 }

/-- `UpdateE2eeFolderUsersMetadataJob::slotFolderUnlocked`: emits
`finished` with the HTTP status of the unlock request. -/
def slotFolderUnlocked (s : JobState) (status : Int) : JobState :=
  if s.phase ≠ .unlocking then s else emitFinished s status

/-- Events delivered to the job by the handler and the sub-jobs. -/
inductive JobEvent where
  | uploadFinished (code : Int) (metadataValid : Bool) (dirsBelow : List Nat)
  | subJobFinished (code : Int)
  | folderUnlocked (status : Int)
deriving DecidableEq, Repr

/-- One event delivery. -/
def jobStep (s : JobState) (e : JobEvent) : JobState :=
  match e with
  | .uploadFinished code valid dirs =>
    if s.phase = .uploading then slotUpdateMetadataFinished s code valid dirs else s
  | .subJobFinished code => slotSubJobFinished s code
  | .folderUnlocked status => slotFolderUnlocked s status

/-- Run a trace of events. -/
def runJob (s : JobState) (tr : List JobEvent) : JobState := tr.foldl jobStep s

/-- The job state right after `uploadMetadata` was issued. -/
def initJob (op : Operation) : JobState :=
  { op := op, phase := .uploading, subJobs := [], runningSub := none
  , startedCount := 0, subFinishedCount := 0, unlockSuccessFlag := none
  , finishedCode := none, subJobsScheduled := false }

/-!
## PropagateLocalRemove / PropagateLocalRename (propagatorjobs.cpp)

Paths are character lists (`QString`); `startsWith` is plain string
prefix, exactly as in the source.  The journal is the abstract
per-path record store of the spec: `deleteFileRecord(path, recursive)`
removes the record at `path` and, when `recursive`, every record below
`path` (path-separator semantics of the database layer).
-/

/-- A path, as the character sequence of its `QString`. -/
abbrev Path := List Char

/-- String literal to `Path`. -/
def pstr (s : String) : Path := s.toList

/-- The path separator. -/
def pathSep : Char := '/'

/-- `QString::startsWith`. -/
def pathStartsWith (s p : Path) : Bool := p.isPrefixOf s

/-- The journal: one record per path, with its directory flag. -/
abbrev Journal := List (Path × Bool)

/-- `SyncJournalDb::deleteFileRecord(path, recursively)`. -/
def deleteFileRecord (j : Journal) (path : Path) (recursive : Bool) : Journal :=
  j.filter (fun r =>
    !(r.1 == path || (recursive && pathStartsWith r.1 (path ++ [pathSep]))))

/-- `SyncJournalDb::getFileRecord`. -/
def getFileRecord (j : Journal) (path : Path) : Option (Path × Bool) :=
  j.find? (fun r => r.1 == path)

/-- `SyncJournalDb::setFileRecord` (via `OwncloudPropagator::updateMetadata`). -/
def setFileRecordJ (j : Journal) (r : Path × Bool) : Journal :=
  j.filter (fun x => !(x.1 == r.1)) ++ [r]

/-- `SyncJournalDb::getFilesBelowPath`: every record strictly below `path`. -/
def getFilesBelowPath (j : Journal) (path : Path) : Journal :=
  j.filter (fun r => pathStartsWith r.1 (path ++ [pathSep]))

/-- Outcome taxonomy of a propagator item job. -/
inductive SyncStatus where
  | Success
  | NormalError
  | SoftError
  | FatalError
  | Conflict
deriving DecidableEq, Repr

/-- The journal-pruning loop of `PropagateLocalRemove::removeRecursively`
run on failure: walk the `deleted` list (reverse-chronological, built by
prepending), skip entries outside the sync root or covered by the current
`deletedDir`, and delete the journal record of each remaining entry. -/
def prunePass (localPath : Path) :
    List (Path × Bool) → Path → Journal → Journal
  | [], _, j => j
  | e :: rest, deletedDir, j =>
    if !(pathStartsWith e.1 localPath) then prunePass localPath rest deletedDir j
    else if !deletedDir.isEmpty && pathStartsWith e.1 deletedDir then
      prunePass localPath rest deletedDir j
    else
      let dd := if e.2 then e.1 else deletedDir
      prunePass localPath rest dd
        (deleteFileRecord j (e.1.drop localPath.length) e.2)

/-- Journal effect of `PropagateLocalRemove::removeRecursively` when the
filesystem walk failed (`success == false`). -/
def removeRecursivelyPrune (localPath : Path) (deleted : List (Path × Bool))
    (j : Journal) : Journal :=
  prunePass localPath deleted [] j

/-- Environment of one `PropagateLocalRemove::start` run: the outcomes of
the filesystem operations and configuration flags.  `fsDeleted` is the
list of entries `FileSystem::removeRecursively` actually deleted, in the
prepend order of the source (a directory precedes the contents deleted
before it). -/
structure LocalRemoveEnv where
  abortRequested : Bool
  moveToTrash : Bool
  clash : Bool
  isDirectory : Bool
  dirExists : Bool
  fileExists : Bool
  trashOk : Bool
  fsRemoveSuccess : Bool
  fsDeleted : List (Path × Bool)
  fileRemoveOk : Bool
deriving Repr

/-- `PropagateLocalRemove::start`: returns the completion status (`none`
when aborted before doing anything) and the resulting journal. -/
def propagateLocalRemoveStart (env : LocalRemoveEnv) (localPath originalFile : Path)
    (j : Journal) : Option SyncStatus × Journal :=
  if env.abortRequested then (none, j)
  else if env.clash then (some .NormalError, j)
  else if env.moveToTrash then
    if (env.dirExists || env.fileExists) && !env.trashOk then (some .NormalError, j)
    else (some .Success, deleteFileRecord j originalFile env.isDirectory)
  else if env.isDirectory then
    if env.dirExists && !env.fsRemoveSuccess then
      (some .NormalError, removeRecursivelyPrune localPath env.fsDeleted j)
    else (some .Success, deleteFileRecord j originalFile env.isDirectory)
  else
    if env.fileExists && !env.fileRemoveOk then (some .NormalError, j)
    else (some .Success, deleteFileRecord j originalFile env.isDirectory)

/-- `_renamedDirectories` insert. -/
def renamedInsert (rd : List (Path × Path)) (k v : Path) : List (Path × Path) :=
  if rd.any (fun x => x.1 == k) then
    rd.map (fun x => if x.1 == k then (k, v) else x)
  else rd ++ [(k, v)]

/-- `_renamedDirectories` lookup. -/
def renamedLookup (rd : List (Path × Path)) (k : Path) : Option Path :=
  (rd.find? (fun x => x.1 == k)).map (fun x => x.2)

/-- State threaded through the directory-subtree journal rewrite of
`PropagateLocalRename::start`. -/
structure RenameWalkState where
  journal : Journal
  ok : Bool
deriving Repr

/-- The `getFilesBelowPath` visitor of `PropagateLocalRename::start`:
rewrite one record from the old prefix to the new one. -/
def renameWalkStep (oldFile renameTarget : Path) (st : RenameWalkState)
    (r : Path × Bool) : RenameWalkState :=
  if r.1 == renameTarget ++ r.1.drop oldFile.length then st
  else
    match getFileRecord st.journal r.1 with
    | none => { st with ok := false }
    | some oldRec =>
      { journal := setFileRecordJ (deleteFileRecord st.journal r.1 false)
          (renameTarget ++ r.1.drop oldFile.length, oldRec.2), ok := st.ok }

/-- Environment of one `PropagateLocalRename::start` run. -/
structure LocalRenameEnv where
  abortRequested : Bool
  itemFile : Path
  renameTarget : Path
  originalFile : Path
  previousNameInDb : Path
  fileAlreadyMoved : Bool
  caseInsensitiveDifferent : Bool
  caseClash : Bool
  renameOk : Bool
  isDirectory : Bool
  pinSetAndNotInherited : Bool
  pinSetOk : Bool
  adjustSelectiveSyncOk : Bool
deriving Repr

/-- `PropagateLocalRename::start`: returns the completion status, the
resulting journal and the updated `_renamedDirectories` map. -/
def propagateLocalRenameStart (env : LocalRenameEnv) (j : Journal)
    (renamedDirs : List (Path × Path)) :
    Option SyncStatus × Journal × List (Path × Path) :=
  if env.abortRequested then (none, j, renamedDirs)
  else if env.itemFile ≠ env.renameTarget
      && (env.caseInsensitiveDifferent && env.caseClash) then
    (some .NormalError, j, renamedDirs)
  else if env.itemFile ≠ env.renameTarget && !env.renameOk then
    (some .NormalError, j, renamedDirs)
  else
    -- getFileRecord(fileAlreadyMoved ? previousNameInDb : originalFile)
    -- (database access assumed healthy; the record may be absent)
    let j1 := if env.fileAlreadyMoved then
        deleteFileRecord j env.previousNameInDb false
      else j
    let j2 := deleteFileRecord j1 env.originalFile false
    if !env.isDirectory then
      -- non-directory: one updateMetadata call for the item itself
      (some .Success, setFileRecordJ j2 (env.itemFile, false), renamedDirs)
    else
      let below := getFilesBelowPath j2 env.itemFile
      let walk := below.foldl (renameWalkStep env.itemFile env.renameTarget)
        { journal := j2, ok := true }
      if !walk.ok then (some .NormalError, walk.journal, renamedDirs)
      else
        let rd1 := renamedInsert renamedDirs env.itemFile env.renameTarget
        if !env.adjustSelectiveSyncOk then (some .FatalError, walk.journal, rd1)
        else if env.pinSetAndNotInherited && !env.pinSetOk then
          (some .NormalError, walk.journal, rd1)
        else (some .Success, walk.journal, rd1)

/-! ## Helper lemmas -/

theorem mem_kinsert (s : List ByteArr) (c a : ByteArr) :
    a ∈ kinsert s c ↔ a ∈ s ∨ a = c := by
  unfold kinsert
  split
  · next h =>
    simp only [List.contains_iff_exists_mem_beq] at h
    obtain ⟨b, hb, hbeq⟩ := h
    have hcb : c = b := by simpa using hbeq
    subst hcb
    constructor
    · exact fun h2 => Or.inl h2
    · rintro (h2 | rfl) <;> assumption
  · simp

theorem mem_kremove (s : List ByteArr) (c a : ByteArr) :
    a ∈ kremove s c ↔ a ∈ s ∧ a ≠ c := by
  unfold kremove
  simp

/-- `rewrapFn` is the per-user body of `updateUsersEncryptedMetadataKey`. -/
def rewrapFn (k : ByteArr) (fu : FolderUser) : FolderUser :=
  match fu.certificatePem.publicKey with
  | none => fu
  | some pub => { fu with encryptedMetadataKey := encryptData k pub }

theorem rewrapFn_userId (k : ByteArr) (fu : FolderUser) :
    (rewrapFn k fu).userId = fu.userId := by
  unfold rewrapFn
  cases fu.certificatePem.publicKey <;> rfl

theorem rewrapFn_certificatePem (k : ByteArr) (fu : FolderUser) :
    (rewrapFn k fu).certificatePem = fu.certificatePem := by
  unfold rewrapFn
  cases fu.certificatePem.publicKey <;> rfl

theorem updateUsersEncryptedMetadataKey_eq (m : FolderMetadata)
    (hm : m.isTopLevelFolder = true) (hk : m.metadataKeyForEncryption ≠ []) :
    m.updateUsersEncryptedMetadataKey =
      { m with folderUsers :=
          m.folderUsers.map (rewrapFn m.metadataKeyForEncryption) } := by
  have h1 : m.metadataKeyForEncryption.isEmpty = false := by
    simpa [List.isEmpty_iff] using hk
  simp [FolderMetadata.updateUsersEncryptedMetadataKey, hm, h1, rewrapFn]

theorem mem_usersInsert (us : List FolderUser) (u x : FolderUser) :
    x ∈ usersInsert us u → x = u ∨ x ∈ us := by
  unfold usersInsert
  split
  · intro hx
    obtain ⟨y, hy, hxy⟩ := List.mem_map.mp hx
    by_cases h : (y.userId == u.userId) = true
    · rw [if_pos h] at hxy
      exact Or.inl hxy.symm
    · rw [if_neg h] at hxy
      exact Or.inr (hxy ▸ hy)
  · intro hx
    rcases List.mem_append.mp hx with h | h
    · exact Or.inr h
    · simp only [List.mem_singleton] at h
      exact Or.inl h

theorem find?_cons_true {α : Type} (p : α → Bool) (a : α) (l : List α)
    (h : p a = true) : List.find? p (a :: l) = some a := by
  simp [List.find?, h]

theorem find?_cons_false {α : Type} (p : α → Bool) (a : α) (l : List α)
    (h : p a = false) : List.find? p (a :: l) = List.find? p l := by
  simp [List.find?, h]

theorem find?_userId_append_single (us : List FolderUser) (u : FolderUser)
    (hall : ∀ x ∈ us, ¬ (x.userId == u.userId) = true) :
    List.find? (fun x => x.userId == u.userId) (us ++ [u]) = some u := by
  induction us with
  | nil => simp
  | cons z zs ih =>
    rw [List.cons_append, find?_cons_false _ _ _
      (by simpa using hall z (List.mem_cons_self z zs))]
    exact ih (fun x hx => hall x (List.mem_cons_of_mem z hx))

theorem find?_userId_map_replace (us : List FolderUser) (u : FolderUser)
    (h : us.any (fun x => x.userId == u.userId) = true) :
    List.find? (fun x => x.userId == u.userId)
      (us.map (fun x => if x.userId == u.userId then u else x)) = some u := by
  induction us with
  | nil => simp at h
  | cons z zs ih =>
    by_cases hz : (z.userId == u.userId) = true
    · simp only [List.map_cons, hz, if_true]
      exact find?_cons_true _ _ _ (by simp)
    · simp only [List.map_cons, hz, Bool.false_eq_true, if_false]
      rw [find?_cons_false _ _ _ (by simpa using hz)]
      exact ih (by simpa [hz] using h)

theorem usersLookup_usersInsert_self (us : List FolderUser) (u : FolderUser) :
    usersLookup (usersInsert us u) u.userId = some u := by
  unfold usersLookup usersInsert
  split
  · next h => exact find?_userId_map_replace us u h
  · next h =>
    refine find?_userId_append_single us u ?_
    intro x hx hbad
    exact h (List.any_eq_true.mpr ⟨x, hx, hbad⟩)

theorem usersLookup_map_rewrap (us : List FolderUser) (k : ByteArr) (uid : String) :
    usersLookup (us.map (rewrapFn k)) uid =
      (usersLookup us uid).map (rewrapFn k) := by
  unfold usersLookup
  induction us with
  | nil => rfl
  | cons z zs ih =>
    by_cases hz : (z.userId == uid) = true
    · rw [List.map_cons,
        find?_cons_true (fun x => x.userId == uid) (rewrapFn k z) (zs.map (rewrapFn k))
          (by simpa [rewrapFn_userId] using hz),
        find?_cons_true (fun x => x.userId == uid) z zs hz]
      rfl
    · rw [List.map_cons,
        find?_cons_false (fun x => x.userId == uid) (rewrapFn k z) (zs.map (rewrapFn k))
          (by simpa [rewrapFn_userId] using hz),
        find?_cons_false (fun x => x.userId == uid) z zs (by simpa using hz)]
      exact ih

theorem usersLookup_eq_none_iff (us : List FolderUser) (uid : String) :
    usersLookup us uid = none ↔ ∀ x ∈ us, x.userId ≠ uid := by
  unfold usersLookup
  rw [List.find?_eq_none]
  constructor
  · intro h x hx
    simpa using h x hx
  · intro h x hx
    simpa using h x hx

theorem usersRemove_of_lookup_none (us : List FolderUser) (uid : String)
    (h : usersLookup us uid = none) : usersRemove us uid = us := by
  unfold usersRemove
  rw [List.filter_eq_self]
  intro x hx
  have := (usersLookup_eq_none_iff us uid).mp h x hx
  simpa using this

theorem usersLookup_usersRemove_self (us : List FolderUser) (uid : String) :
    usersLookup (usersRemove us uid) uid = none := by
  rw [usersLookup_eq_none_iff]
  intro x hx
  have hx2 := List.mem_filter.mp hx
  simpa using hx2.2

theorem mem_usersRemove (us : List FolderUser) (uid : String) (x : FolderUser) :
    x ∈ usersRemove us uid → x ∈ us := by
  intro hx
  exact (List.mem_filter.mp hx).1

/-- The `FolderUser` record built by `addUser` before the re-wrap pass. -/
def newUserOf (u : String) (certificate : Cert) (k : ByteArr) : FolderUser :=
  { userId := u
  , certificatePem := certificate
  , encryptedMetadataKey := encryptData k (certificate.pub.getD 0)
  , encryptedFiledropKey := .empty }

/-- The key-checksum rotation performed by
`createNewMetadataKeyForEncryption` when both the old and the fresh key
are non-empty. -/
def rotateChecksums (m : FolderMetadata) (freshKey : ByteArr) : List ByteArr :=
  kinsert (kremove m.keyChecksums (calcSha256 m.metadataKeyForEncryption))
    (calcSha256 freshKey)

theorem createNewMetadataKeyForEncryption_eq (m : FolderMetadata)
    (freshKey : ByteArr) (hm : m.isTopLevelFolder = true)
    (hold : m.metadataKeyForEncryption ≠ []) (hk : freshKey ≠ []) :
    m.createNewMetadataKeyForEncryption freshKey =
      { m with metadataKeyForEncryption := freshKey
             , keyChecksums := rotateChecksums m freshKey } := by
  have h1 : m.metadataKeyForEncryption.isEmpty = false := by
    simpa [List.isEmpty_iff] using hold
  have h2 : freshKey.isEmpty = false := by
    simpa [List.isEmpty_iff] using hk
  simp [FolderMetadata.createNewMetadataKeyForEncryption, hm, h1, h2, rotateChecksums]

theorem isTopLevelFolder_mk (m : FolderMetadata) (key : ByteArr)
    (cs : List ByteArr) (us : List FolderUser) :
    ({ m with metadataKeyForEncryption := key, keyChecksums := cs
            , folderUsers := us } : FolderMetadata).isTopLevelFolder
      = m.isTopLevelFolder := rfl

theorem addUser_eq (m : FolderMetadata) (u : String) (certificate : Cert)
    (k : ByteArr) (hm : m.isTopLevelFolder = true) (hu : u ≠ "")
    (hnull : certificate.isNull = false) (p : Nat) (hp : certificate.pub = some p)
    (hold : m.metadataKeyForEncryption ≠ []) (hk : k ≠ []) :
    m.addUser u certificate k =
      (true, { m with metadataKeyForEncryption := k
                    , keyChecksums := rotateChecksums m k
                    , folderUsers :=
                        (usersInsert m.folderUsers (newUserOf u certificate k)).map
                          (rewrapFn k) }) := by
  have hEmpty : u.isEmpty = false := by
    rw [Bool.eq_false_iff]
    intro hbad
    exact hu ((String.isEmpty_iff u).mp hbad)
  have hm' : m.topLevelFolderPath = "/" := by
    simpa [FolderMetadata.isTopLevelFolder] using hm
  have h1 : m.metadataKeyForEncryption.isEmpty = false := by
    simpa [List.isEmpty_iff] using hold
  have h2 : k.isEmpty = false := by
    simpa [List.isEmpty_iff] using hk
  simp [FolderMetadata.addUser, FolderMetadata.createNewMetadataKeyForEncryption,
    FolderMetadata.updateUsersEncryptedMetadataKey, FolderMetadata.isTopLevelFolder,
    hm', hEmpty, hnull, hp, h1, h2, newUserOf, rotateChecksums, rewrapFn]

theorem removeUser_eq (m : FolderMetadata) (u : String) (k : ByteArr)
    (hm : m.isTopLevelFolder = true) (hu : u ≠ "")
    (hold : m.metadataKeyForEncryption ≠ []) (hk : k ≠ []) :
    m.removeUser u k =
      (true, { m with metadataKeyForEncryption := k
                    , keyChecksums := rotateChecksums m k
                    , folderUsers := (usersRemove m.folderUsers u).map (rewrapFn k) }) := by
  have hEmpty : u.isEmpty = false := by
    rw [Bool.eq_false_iff]
    intro hbad
    exact hu ((String.isEmpty_iff u).mp hbad)
  have hm' : m.topLevelFolderPath = "/" := by
    simpa [FolderMetadata.isTopLevelFolder] using hm
  have h1 : m.metadataKeyForEncryption.isEmpty = false := by
    simpa [List.isEmpty_iff] using hold
  have h2 : k.isEmpty = false := by
    simpa [List.isEmpty_iff] using hk
  simp [FolderMetadata.removeUser, FolderMetadata.createNewMetadataKeyForEncryption,
    FolderMetadata.updateUsersEncryptedMetadataKey, FolderMetadata.isTopLevelFolder,
    hm', hEmpty, h1, h2, rotateChecksums, rewrapFn]

theorem mem_rotateChecksums_fresh (m : FolderMetadata) (k : ByteArr) :
    calcSha256 k ∈ rotateChecksums m k := by
  unfold rotateChecksums
  rw [mem_kinsert]
  exact Or.inr rfl

theorem old_not_mem_rotateChecksums (m : FolderMetadata) (k : ByteArr)
    (hne : k ≠ m.metadataKeyForEncryption) :
    calcSha256 m.metadataKeyForEncryption ∉ rotateChecksums m k := by
  unfold rotateChecksums
  rw [mem_kinsert, mem_kremove]
  rintro (⟨_, h⟩ | h)
  · exact h rfl
  · exact hne (calcSha256_injective h.symm)

theorem rewrap_wraps (k : ByteArr) (x : FolderUser) (q : Nat)
    (hq : x.certificatePem.publicKey = some q) :
    (rewrapFn k x).certificatePem.publicKey = some q ∧
    (rewrapFn k x).encryptedMetadataKey = encryptData k q := by
  constructor
  · rw [rewrapFn_certificatePem]
    exact hq
  · unfold rewrapFn
    rw [hq]

/-! ## Concrete sample states -/

/-- A top-level version-2.0 state with the given encryption key, key
checksums, users and files (all other fields as freshly constructed). -/
def mkTopState (davUser : String) (pub : Nat) (encKey : ByteArr)
    (cs : List ByteArr) (us : List FolderUser) (fs : List EncryptedFile) :
    FolderMetadata :=
  { FolderMetadata.initialState davUser pub [] false .Version2_0 "/"
      encKey encKey cs with
    folderUsers := us, files := fs, versionFromMetadata := 2 }

def c2k0 : ByteArr := List.replicate 16 1
def c2k1 : ByteArr := List.replicate 16 2
def c2k2 : ByteArr := List.replicate 16 3
def c2cert : Cert := { isNull := false, pub := some 5 }
def c2u0 : FolderUser :=
  { userId := "alice", certificatePem := { isNull := false, pub := some 9 }
  , encryptedMetadataKey := .wrap 9 c2k0, encryptedFiledropKey := .empty }
def c2m : FolderMetadata :=
  mkTopState "alice" 9 c2k0 [calcSha256 c2k0] [c2u0] []

/-! ## Claim theorems -/

/-- C2: for a top-level `FolderMetadata`, `addUser` and `removeUser` always
rotate the metadata key: the old encryption key's checksum is removed from
`keyChecksums`, a fresh random key is installed with its checksum, the new
key is re-wrapped (RSA-OAEP under each certificate's public key) for every
user in the folder-user map (and for `addUser` additionally wrapped for
the new user); after `addUser(u, cert)` followed by `removeUser(u)` no
wrapped key for `u` remains and the rotated-away key's checksum is absent
from `keyChecksums`.  Freshness of the generated keys and validity of the
stored certificates are the hypotheses. -/
theorem c2_addUser_removeUser_rotation
    (m : FolderMetadata) (u : String) (certificate : Cert) (p : Nat)
    (k1 k2 : ByteArr)
    (hm : m.isTopLevelFolder = true) (hu : u ≠ "")
    (hnull : certificate.isNull = false) (hp : certificate.pub = some p)
    (hold : m.metadataKeyForEncryption ≠ [])
    (hk1 : k1 ≠ []) (hk2 : k2 ≠ [])
    (hfresh1 : k1 ≠ m.metadataKeyForEncryption) (hfresh2 : k2 ≠ k1)
    (hcerts : ∀ fu ∈ m.folderUsers, fu.certificatePem.publicKey ≠ none) :
    ∃ mA mB,
      m.addUser u certificate k1 = (true, mA) ∧
      mA.removeUser u k2 = (true, mB) ∧
      mA.metadataKeyForEncryption = k1 ∧
      calcSha256 m.metadataKeyForEncryption ∉ mA.keyChecksums ∧
      calcSha256 k1 ∈ mA.keyChecksums ∧
      (∃ fu, usersLookup mA.folderUsers u = some fu ∧
        fu.encryptedMetadataKey = encryptData k1 p) ∧
      (∀ fu ∈ mA.folderUsers, ∃ q, fu.certificatePem.publicKey = some q ∧
        fu.encryptedMetadataKey = encryptData k1 q) ∧
      mB.metadataKeyForEncryption = k2 ∧
      usersLookup mB.folderUsers u = none ∧
      calcSha256 k1 ∉ mB.keyChecksums ∧
      calcSha256 k2 ∈ mB.keyChecksums ∧
      (∀ fu ∈ mB.folderUsers, ∃ q, fu.certificatePem.publicKey = some q ∧
        fu.encryptedMetadataKey = encryptData k2 q) := by
  have hadd := addUser_eq m u certificate k1 hm hu hnull p hp hold hk1
  set mA : FolderMetadata := { m with
    metadataKeyForEncryption := k1
  , keyChecksums := rotateChecksums m k1
  , folderUsers := (usersInsert m.folderUsers (newUserOf u certificate k1)).map
      (rewrapFn k1) } with hmADef
  have hmATop : mA.isTopLevelFolder = true := hm
  have hAkey : mA.metadataKeyForEncryption = k1 := rfl
  have hnewpub : (newUserOf u certificate k1).certificatePem.publicKey = some p := by
    simp [newUserOf, Cert.publicKey, hnull, hp]
  have hAusers : ∀ fu ∈ mA.folderUsers, ∃ q,
      fu.certificatePem.publicKey = some q ∧
      fu.encryptedMetadataKey = encryptData k1 q := by
    intro fu hfu
    obtain ⟨x, hx, rfl⟩ := List.mem_map.mp hfu
    rcases mem_usersInsert _ _ _ hx with rfl | hxm
    · obtain ⟨h1, h2⟩ := rewrap_wraps k1 _ p hnewpub
      exact ⟨p, h1, h2⟩
    · obtain ⟨q, hq⟩ := Option.ne_none_iff_exists.mp (hcerts x hxm)
      obtain ⟨h1, h2⟩ := rewrap_wraps k1 x q hq.symm
      exact ⟨q, h1, h2⟩
  have hrem := removeUser_eq mA u k2 hmATop hu (by rw [hAkey]; exact hk1) hk2
  refine ⟨mA, _, hadd, hrem, hAkey, ?_, ?_, ?_, hAusers, rfl, ?_, ?_, ?_, ?_⟩
  · exact old_not_mem_rotateChecksums m k1 hfresh1
  · exact mem_rotateChecksums_fresh m k1
  · show ∃ fu, usersLookup
      ((usersInsert m.folderUsers (newUserOf u certificate k1)).map (rewrapFn k1)) u
        = some fu ∧ fu.encryptedMetadataKey = encryptData k1 p
    rw [usersLookup_map_rewrap]
    rw [show usersLookup (usersInsert m.folderUsers (newUserOf u certificate k1)) u
        = some (newUserOf u certificate k1) from
      usersLookup_usersInsert_self m.folderUsers (newUserOf u certificate k1)]
    exact ⟨_, rfl, (rewrap_wraps k1 _ p hnewpub).2⟩
  · show usersLookup ((usersRemove mA.folderUsers u).map (rewrapFn k2)) u = none
    rw [usersLookup_map_rewrap, usersLookup_usersRemove_self]
    rfl
  · exact old_not_mem_rotateChecksums mA k2 hfresh2
  · exact mem_rotateChecksums_fresh mA k2
  · intro fu hfu
    obtain ⟨x, hx, rfl⟩ := List.mem_map.mp hfu
    obtain ⟨q, h1, -⟩ := hAusers x (mem_usersRemove _ _ _ hx)
    obtain ⟨ha, hb⟩ := rewrap_wraps k2 x q h1
    exact ⟨q, ha, hb⟩

theorem c2_addUser_removeUser_rotation_witness :
    ∃ mA mB, c2m.addUser "bob" c2cert c2k1 = (true, mA) ∧
      mA.removeUser "bob" c2k2 = (true, mB) := by
  obtain ⟨mA, mB, h1, h2, -⟩ :=
    c2_addUser_removeUser_rotation c2m "bob" c2cert 5 c2k1 c2k2
      (by decide) (by decide) (by decide) (by decide) (by decide)
      (by decide) (by decide) (by decide) (by decide) (by decide)
  exact ⟨mA, mB, h1, h2⟩

def c9k0 : ByteArr := List.replicate 16 4
def c9k1 : ByteArr := List.replicate 16 5
def c9u0 : FolderUser :=
  { userId := "carol", certificatePem := { isNull := false, pub := some 11 }
  , encryptedMetadataKey := .wrap 11 c9k0, encryptedFiledropKey := .empty }
def c9m : FolderMetadata :=
  mkTopState "carol" 11 c9k0 [calcSha256 c9k0] [c9u0] []

/-- C9: for a top-level `FolderMetadata` and a non-empty user id absent
from the folder-user map, `removeUser` still rotates the metadata key
(removes the old key's checksum, installs a fresh key and its checksum,
re-wraps the fresh key for all existing users) and returns `true` rather
than reporting an error. -/
theorem c9_removeUser_absent_user_rotates
    (m : FolderMetadata) (u : String) (k : ByteArr)
    (hm : m.isTopLevelFolder = true) (hu : u ≠ "")
    (habsent : usersLookup m.folderUsers u = none)
    (hold : m.metadataKeyForEncryption ≠ []) (hk : k ≠ [])
    (hfresh : k ≠ m.metadataKeyForEncryption)
    (hcerts : ∀ fu ∈ m.folderUsers, fu.certificatePem.publicKey ≠ none) :
    ∃ mB, m.removeUser u k = (true, mB) ∧
      mB.metadataKeyForEncryption = k ∧
      calcSha256 m.metadataKeyForEncryption ∉ mB.keyChecksums ∧
      calcSha256 k ∈ mB.keyChecksums ∧
      mB.folderUsers.map (fun fu => fu.userId)
        = m.folderUsers.map (fun fu => fu.userId) ∧
      (∀ fu ∈ mB.folderUsers, ∃ q, fu.certificatePem.publicKey = some q ∧
        fu.encryptedMetadataKey = encryptData k q) := by
  have hrem := removeUser_eq m u k hm hu hold hk
  rw [usersRemove_of_lookup_none m.folderUsers u habsent] at hrem
  refine ⟨_, hrem, rfl, old_not_mem_rotateChecksums m k hfresh,
    mem_rotateChecksums_fresh m k, ?_, ?_⟩
  · show (m.folderUsers.map (rewrapFn k)).map (fun fu => fu.userId)
      = m.folderUsers.map (fun fu => fu.userId)
    simp [List.map_map, Function.comp_def, rewrapFn_userId]
  · intro fu hfu
    obtain ⟨x, hx, rfl⟩ := List.mem_map.mp hfu
    obtain ⟨q, hq⟩ := Option.ne_none_iff_exists.mp (hcerts x hx)
    obtain ⟨ha, hb⟩ := rewrap_wraps k x q hq.symm
    exact ⟨q, ha, hb⟩

theorem c9_removeUser_absent_user_rotates_witness :
    ∃ mB, c9m.removeUser "dave" c9k1 = (true, mB) ∧
      mB.metadataKeyForEncryption = c9k1 ∧
      calcSha256 c9m.metadataKeyForEncryption ∉ mB.keyChecksums ∧
      calcSha256 c9k1 ∈ mB.keyChecksums ∧
      mB.folderUsers.map (fun fu => fu.userId)
        = c9m.folderUsers.map (fun fu => fu.userId) ∧
      (∀ fu ∈ mB.folderUsers, ∃ q, fu.certificatePem.publicKey = some q ∧
        fu.encryptedMetadataKey = encryptData c9k1 q) :=
  c9_removeUser_absent_user_rotates c9m "dave" c9k1
    (by decide) (by decide) (by decide) (by decide) (by decide)
    (by decide) (by decide)


def c3key : ByteArr := List.replicate 16 3

/-- A version-0 (sub-1.0) raw metadata document: carries a v1.0-style
`metadataKeys` map decryptable by the account and one legacy file entry. -/
def c3doc : MetaDoc :=
  { metadata := { cipherText := none, nonce := [], authenticationTag := [] }
  , metadataObjVersion := none
  , docVersion := some 0
  , users := []
  , filedrop := none
  , legacyMetadataKey := none
  , legacyMetadataKeys := [("k1", AsymCipher.wrap 9 c3key)]
  , legacyFiles := [("enc1",
      { authenticationTag := [5], initializationVector := [6]
      , encrypted := some
          { pass := c3key, filename := "doc.txt", key := [7]
          , mimetype := "text/plain" } })]
  , legacyChecksum := []
  , legacyMetadataKeyText := [] }

def c3state : FolderMetadata :=
  FolderMetadata.initialState "alice" 9 [] false .Version2_0 "/" [] [] []

/-- C3: the claim says a document with embedded schema version strictly
below 1.0 makes `setupExistingMetadata` abort silently, parse no file
entries and leave the object invalid with the legacy migration path not
taken.  In the code the abort guard compares `metadataVersion()` against
`Version1`, but `metadataVersion()` maps every value below 1.2 to
`Version1`, so the guard can never fire (first conjunct); a version-0
document instead runs the legacy migration path: it parses file entries,
sets up the metadata decryption key and marks `migrationNeeded`
(remaining conjuncts evaluate the code on such a document). -/
theorem c3_version_below_one_runs_legacy_migration :
    (∀ m : FolderMetadata,
      ¬ (m.metadataVersion.toIdx < RequiredMetadataVersion.Version1.toIdx)) ∧
    (c3state.setupExistingMetadata c3doc).migrationNeeded = true ∧
    (c3state.setupExistingMetadata c3doc).files ≠ [] ∧
    (c3state.setupExistingMetadata c3doc).metadataKeyForDecryption = c3key := by
  refine ⟨fun m h => Nat.not_lt_zero _ h, ?_⟩
  decide

def c4m : FolderMetadata :=
  { FolderMetadata.initialState "alice" 9 [] false .Version2_0 "sub" [] [] [] with
    versionFromMetadata := 2 }

/-- C4 counterexample: a non-top-level `FolderMetadata` with a
legitimately empty checksum set (embedded version 2) for which
`verifyMetadataKey` returns `false` on a key, contradicting the claim
that any key is accepted when the checksum set is legitimately empty. -/
theorem c4_counterexample :
    c4m.isTopLevelFolder = false ∧ c4m.keyChecksums = [] ∧
    c4m.verifyMetadataKey [] = false := by
  decide

/-- C4 amended: `verifyMetadataKey` accepts a key iff the embedded
metadata version is below 2, or the key is at least 16 bytes long and
either the SHA-256 of its first 16 bytes is in `keyChecksums` or the
checksum set is empty.  In particular: for version ≥ 2, a top-level
folder with a non-empty checksum set rejects every (long-enough) key
whose truncated-key checksum is absent, an empty checksum set accepts
every key of at least 16 bytes, and keys shorter than 16 bytes are
always rejected. -/
theorem c4_verifyMetadataKey_amended (m : FolderMetadata) (k : ByteArr) :
    m.verifyMetadataKey k = true ↔
      (m.versionFromMetadata < 2 ∨
        (metadataKeySize ≤ k.length ∧
          (calcSha256 (k.take metadataKeySize) ∈ m.keyChecksums ∨
            m.keyChecksums = []))) := by
  unfold FolderMetadata.verifyMetadataKey
  by_cases h1 : m.versionFromMetadata < 2
  · simp [h1]
  · rw [if_neg h1]
    by_cases h2 : metadataKeySize ≤ k.length
    · have hne : k ≠ [] := by
        intro h
        subst h
        simp [metadataKeySize] at h2
      have hcond : (k.isEmpty || decide (k.length < metadataKeySize)) = false := by
        simp [List.isEmpty_iff, hne, not_lt.mpr h2]
      rw [if_neg (by simp [hcond])]
      simp only [Bool.or_eq_true, List.isEmpty_iff]
      constructor
      · rintro (hc | hc)
        · refine Or.inr ⟨h2, Or.inl ?_⟩
          simpa [List.contains_iff_exists_mem_beq, eq_comm] using hc
        · exact Or.inr ⟨h2, Or.inr hc⟩
      · rintro (hv | ⟨-, hc | hc⟩)
        · exact absurd hv h1
        · exact Or.inl (by simpa [List.contains_iff_exists_mem_beq, eq_comm] using hc)
        · exact Or.inr hc
    · have hcond : (k.isEmpty || decide (k.length < metadataKeySize)) = true := by
        simp [not_le.mp h2]
      rw [if_pos hcond]
      constructor
      · intro h
        exact absurd h (by simp)
      · rintro (hv | ⟨hlen, -⟩)
        · exact absurd hv h1
        · exact absurd hlen h2

theorem c4_verifyMetadataKey_amended_witness :
    c4m.verifyMetadataKey (List.replicate 16 5) = true :=
  (c4_verifyMetadataKey_amended c4m (List.replicate 16 5)).mpr
    (Or.inr ⟨by decide, Or.inr (by decide)⟩)

/-- C5: for a folder-user Remove operation whose metadata upload finishes
with a non-200 status, the job calls `unlockFolder(success=false)` and
schedules no re-encryption sub-jobs — but, contrary to the claim that the
job then finishes with an error status, the `finished` signal carries the
HTTP status of the unlock request, so a successful unlock (200) makes the
job report 200 (the success code) after a failed upload.  Evaluated on
the trace: upload finishes with 500, unlock finishes with 200. -/
theorem c5_upload_failure_unlock_without_commit :
    (runJob (initJob .Remove)
      [.uploadFinished 500 true [1, 2], .folderUnlocked 200]).unlockSuccessFlag
        = some false ∧
    (runJob (initJob .Remove)
      [.uploadFinished 500 true [1, 2], .folderUnlocked 200]).subJobsScheduled
        = false ∧
    (runJob (initJob .Remove)
      [.uploadFinished 500 true [1, 2], .folderUnlocked 200]).startedCount = 0 ∧
    (runJob (initJob .Remove)
      [.uploadFinished 500 true [1, 2], .folderUnlocked 200]).finishedCode
        = some 200 := by
  decide

def c10m : FolderMetadata :=
  FolderMetadata.initialState "alice" 9 [] false .Version2_0 "/" [] [] []

def c10key : ByteArr := List.replicate 16 6

def c10drop : FolderMetadata :=
  { FolderMetadata.initialState "alice" 9 [] false .Version2_0 "/"
      c10key c10key [] with
    fileDropCipherText := some { key := c10key, iv := [1], plain := CipherDoc.empty }
  , metadataNonce := [1] }

/-- C10: `moveFromFileDropToFiles` returns `false` and leaves the state
unchanged whenever the filedrop ciphertext, the metadata encryption key
or the metadata nonce is empty; when it returns `true` it clears the
filedrop ciphertext, so `isFileDropPresent` is `false` afterwards and an
immediately repeated call returns `false`. -/
theorem c10_moveFromFileDropToFiles_spec (m : FolderMetadata) :
    ((m.fileDropCipherText.isNone || m.metadataKeyForEncryption.isEmpty
        || m.metadataNonce.isEmpty) = true →
      m.moveFromFileDropToFiles = (false, m)) ∧
    (∀ r, m.moveFromFileDropToFiles = (true, r) →
      r.fileDropCipherText = none ∧ r.isFileDropPresent = false ∧
      r.moveFromFileDropToFiles = (false, r)) := by
  constructor
  · intro h
    unfold FolderMetadata.moveFromFileDropToFiles
    rw [if_pos h]
  · intro r hr
    unfold FolderMetadata.moveFromFileDropToFiles at hr
    by_cases h : (m.fileDropCipherText.isNone || m.metadataKeyForEncryption.isEmpty
        || m.metadataNonce.isEmpty) = true
    · rw [if_pos h] at hr
      simp at hr
    · rw [if_neg h] at hr
      injection hr with h1 h2
      subst h2
      refine ⟨rfl, rfl, ?_⟩
      unfold FolderMetadata.moveFromFileDropToFiles
      rw [if_pos (by simp)]

theorem c10_moveFromFileDropToFiles_spec_witness :
    c10m.moveFromFileDropToFiles = (false, c10m) ∧
    (c10drop.moveFromFileDropToFiles.2).isFileDropPresent = false := by
  constructor
  · exact (c10_moveFromFileDropToFiles_spec c10m).1 (by decide)
  · exact ((c10_moveFromFileDropToFiles_spec c10drop).2
      c10drop.moveFromFileDropToFiles.2 (by decide)).2.1


/-- The sub-job serialization invariant of
`UpdateE2eeFolderUsersMetadataJob`: at most one sub-job is outstanding
(`startedCount` exceeds `subFinishedCount` by at most the one running
sub-job), and no sub-job runs outside the `runningSubs` phase. -/
def JobInv (s : JobState) : Prop :=
  s.startedCount ≤ s.subFinishedCount
      + (if s.runningSub.isSome then 1 else 0) ∧
  (s.phase ≠ .runningSubs → s.runningSub = none)

theorem jobInv_init (op : Operation) : JobInv (initJob op) := by
  constructor <;> simp [initJob]

theorem jobInv_step (s : JobState) (e : JobEvent) (h : JobInv s) :
    JobInv (jobStep s e) := by
  obtain ⟨h1, h2⟩ := h
  cases e with
  | uploadFinished code valid dirs =>
    by_cases hp : s.phase = .uploading
    · have hrun : s.runningSub = none := h2 (by simp [hp])
      have hb : s.startedCount ≤ s.subFinishedCount := by simpa [hrun] using h1
      simp only [jobStep, hp, if_true]
      unfold slotUpdateMetadataFinished
      by_cases hcode : code ≠ 200
      · rw [if_pos hcode]
        by_cases hop : s.op = .Add ∨ s.op = .Remove
        · rw [if_pos hop]
          exact ⟨by simp [unlockFolder, hrun]; omega,
            fun _ => by simp [unlockFolder, hrun]⟩
        · rw [if_neg hop]
          exact ⟨by simp [emitFinished, hrun]; omega,
            fun _ => by simp [emitFinished, hrun]⟩
      · rw [if_neg hcode]
        by_cases hop : s.op = .Add ∨ s.op = .Remove
        · rw [if_pos hop]
          by_cases hvalid : (!valid) = true
          · rw [if_pos hvalid]
            exact ⟨by simp [unlockFolder, hrun]; omega,
              fun _ => by simp [unlockFolder, hrun]⟩
          · rw [if_neg hvalid]
            by_cases hdirs : dirs.isEmpty = true
            · rw [if_pos hdirs]
              exact ⟨by simp [unlockFolder, hrun]; omega,
                fun _ => by simp [unlockFolder, hrun]⟩
            · rw [if_neg hdirs]
              refine ⟨?_, fun hc => absurd rfl hc⟩
              have hsome : (dirs.getLast?).isSome = true := by
                rw [List.getLast?_isSome]
                simpa [List.isEmpty_iff] using hdirs
              simp [hsome]
              omega
        · rw [if_neg hop]
          exact ⟨by simp [emitFinished, hrun]; omega,
            fun _ => by simp [emitFinished, hrun]⟩
    · simp only [jobStep, hp, if_false]
      exact ⟨h1, h2⟩
  | subJobFinished code =>
    by_cases hp : s.phase = .runningSubs
    · simp only [jobStep]
      unfold slotSubJobFinished
      rw [if_neg (by simp [hp])]
      have hbound : s.startedCount ≤ s.subFinishedCount + 1 := by
        by_cases hr : s.runningSub.isSome = true
        · simpa [hr] using h1
        · simp only [hr, Bool.false_eq_true, if_false] at h1
          omega
      by_cases hcode : code ≠ 200
      · rw [if_pos hcode]
        refine ⟨?_, fun _ => rfl⟩
        simp [unlockFolder]
        omega
      · rw [if_neg hcode]
        by_cases hempty : s.subJobs.dropLast.isEmpty = true
        · rw [if_pos hempty]
          refine ⟨?_, fun _ => rfl⟩
          simp
          omega
        · rw [if_neg hempty]
          refine ⟨?_, fun hc => absurd hp hc⟩
          have hsome : (s.subJobs.dropLast.getLast?).isSome = true := by
            rw [List.getLast?_isSome]
            simpa [List.isEmpty_iff] using hempty
          simp [hsome]
          omega
    · simp only [jobStep]
      unfold slotSubJobFinished
      rw [if_pos (by simp [hp])]
      exact ⟨h1, h2⟩
  | folderUnlocked status =>
    by_cases hp : s.phase = .unlocking
    · have hrun : s.runningSub = none := h2 (by simp [hp])
      simp only [jobStep]
      unfold slotFolderUnlocked
      rw [if_neg (by simp [hp])]
      exact ⟨by simpa [emitFinished, hrun] using h1,
        fun _ => by simp [emitFinished, hrun]⟩
    · simp only [jobStep]
      unfold slotFolderUnlocked
      rw [if_pos (by simp [hp])]
      exact ⟨h1, h2⟩

theorem jobInv_run (s : JobState) (tr : List JobEvent) (h : JobInv s) :
    JobInv (runJob s tr) := by
  induction tr generalizing s with
  | nil => exact h
  | cons e rest ih => exact ih _ (jobInv_step s e h)

/-- C6: re-encryption sub-jobs are strictly serialized — on every event
trace from the start of the upload, the number of sub-job starts never
exceeds the number of finished sub-jobs by more than one (at most one
sub-job runs at any time), a new sub-job is started only by a sub-job
finished signal; once the job has moved to unlocking/finished no event
starts another sub-job; a sub-job error immediately requests
`unlockFolder(success=false)` without starting another sub-job.  However,
contrary to the claim's final clause that the parent then finishes with
an error, the `finished` code is the unlock request's HTTP status: on the
trace (upload 200, sub-job error 500, unlock 200) the job reports
finished code 200 — the success code — as the last conjunct evaluates. -/
theorem c6_subjobs_serialized_and_error_aborts :
    (∀ (op : Operation) (tr : List JobEvent),
      (runJob (initJob op) tr).startedCount
        ≤ (runJob (initJob op) tr).subFinishedCount + 1) ∧
    (∀ (s : JobState) (e : JobEvent),
      s.phase = .unlocking ∨ s.phase = .finished →
      (jobStep s e).startedCount = s.startedCount ∧
      ((jobStep s e).phase = .unlocking ∨ (jobStep s e).phase = .finished)) ∧
    (∀ (s : JobState) (code : Int), s.phase = .runningSubs → code ≠ 200 →
      (jobStep s (.subJobFinished code)).unlockSuccessFlag = some false ∧
      (jobStep s (.subJobFinished code)).phase = .unlocking ∧
      (jobStep s (.subJobFinished code)).startedCount = s.startedCount) ∧
    ((runJob (initJob .Remove)
        [.uploadFinished 200 true [1, 2], .subJobFinished 500,
          .folderUnlocked 200]).unlockSuccessFlag = some false ∧
      (runJob (initJob .Remove)
        [.uploadFinished 200 true [1, 2], .subJobFinished 500,
          .folderUnlocked 200]).startedCount = 1 ∧
      (runJob (initJob .Remove)
        [.uploadFinished 200 true [1, 2], .subJobFinished 500,
          .folderUnlocked 200]).finishedCode = some 200) := by
  refine ⟨?_, ?_, ?_, by decide⟩
  · intro op tr
    have h := jobInv_run (initJob op) tr (jobInv_init op)
    obtain ⟨h1, -⟩ := h
    by_cases hrun : (runJob (initJob op) tr).runningSub.isSome = true
    · simpa [hrun] using h1
    · simp only [hrun, Bool.false_eq_true, if_false] at h1
      omega
  · intro s e h
    cases e with
    | uploadFinished code valid dirs =>
      have hp : s.phase ≠ .uploading := by
        rcases h with h | h <;> simp [h]
      simp [jobStep, hp]
      exact h
    | subJobFinished code =>
      have hp : s.phase ≠ .runningSubs := by
        rcases h with h | h <;> simp [h]
      simp only [jobStep]
      unfold slotSubJobFinished
      rw [if_pos (by simpa using hp)]
      exact ⟨rfl, h⟩
    | folderUnlocked status =>
      simp only [jobStep]
      unfold slotFolderUnlocked
      rcases h with h | h
      · rw [if_neg (by simp [h])]
        exact ⟨rfl, Or.inr rfl⟩
      · rw [if_pos (by simp [h])]
        exact ⟨rfl, Or.inr h⟩
  · intro s code hp hc
    simp only [jobStep]
    unfold slotSubJobFinished
    rw [if_neg (by simp [hp]), if_pos hc]
    exact ⟨rfl, rfl, rfl⟩

theorem c6_subjobs_serialized_and_error_aborts_witness :
    (runJob (initJob Operation.Remove)
      [JobEvent.uploadFinished 200 true [7], JobEvent.subJobFinished 200,
        JobEvent.folderUnlocked 200]).startedCount
      ≤ (runJob (initJob Operation.Remove)
          [JobEvent.uploadFinished 200 true [7], JobEvent.subJobFinished 200,
            JobEvent.folderUnlocked 200]).subFinishedCount + 1 :=
  c6_subjobs_serialized_and_error_aborts.1 Operation.Remove
    [JobEvent.uploadFinished 200 true [7], JobEvent.subJobFinished 200,
      JobEvent.folderUnlocked 200]


/-! ## PropagateLocalRemove lemmas (C7) -/

theorem pathStartsWith_iff (s p : Path) : pathStartsWith s p = true ↔ p <+: s := by
  unfold pathStartsWith
  exact List.isPrefixOf_iff_prefix

theorem pathStartsWith_append_iff (lp a b : Path) :
    pathStartsWith (lp ++ a) (lp ++ b) = true ↔ pathStartsWith a b = true := by
  rw [pathStartsWith_iff, pathStartsWith_iff]
  exact List.prefix_append_right_inj lp

theorem mem_deleteFileRecord (j : Journal) (p : Path) (rec : Bool) (r : Path × Bool) :
    r ∈ deleteFileRecord j p rec ↔
      r ∈ j ∧ r.1 ≠ p ∧
        (rec = true → pathStartsWith r.1 (p ++ [pathSep]) = false) := by
  unfold deleteFileRecord
  rw [List.mem_filter]
  constructor
  · rintro ⟨h1, h2⟩
    rw [Bool.not_eq_true'] at h2
    rw [Bool.or_eq_false_iff] at h2
    obtain ⟨ha, hb⟩ := h2
    refine ⟨h1, by simpa using ha, ?_⟩
    intro hrec
    rw [hrec] at hb
    simpa using hb
  · rintro ⟨h1, h2, h3⟩
    refine ⟨h1, ?_⟩
    rw [Bool.not_eq_true', Bool.or_eq_false_iff]
    refine ⟨by simpa using h2, ?_⟩
    cases hrec : rec
    · simp
    · simp [h3 hrec]

theorem prunePass_subset (localPath : Path) (entries : List (Path × Bool))
    (dd : Path) (j : Journal) : ∀ r ∈ prunePass localPath entries dd j, r ∈ j := by
  induction entries generalizing dd j with
  | nil => intro r hr; exact hr
  | cons e rest ih =>
    intro r hr
    unfold prunePass at hr
    split_ifs at hr with h1 h2 he2
    · exact ih _ _ r hr
    · exact ih _ _ r hr
    · exact ((mem_deleteFileRecord _ _ _ r).mp (ih _ _ r hr)).1
    · exact ((mem_deleteFileRecord _ _ _ r).mp (ih _ _ r hr)).1

theorem prunePass_sound_delete (localPath : Path) (e : Path × Bool)
    (j : Journal) (r : Path × Bool) (hr : r ∈ j)
    (hLP : pathStartsWith e.1 localPath = true)
    (hne : localPath ++ r.1 ≠ e.1)
    (himp : e.2 = true → pathStartsWith (localPath ++ r.1) (e.1 ++ [pathSep]) = false) :
    r ∈ deleteFileRecord j (e.1.drop localPath.length) e.2 := by
  obtain ⟨t, ht⟩ := (pathStartsWith_iff _ _).mp hLP
  have hdrop : e.1.drop localPath.length = t := by
    rw [← ht]
    exact List.drop_left _ _
  rw [mem_deleteFileRecord]
  refine ⟨hr, ?_, ?_⟩
  · rw [hdrop]
    intro hc
    exact hne (by rw [hc, ht])
  · intro hrec
    rw [hdrop]
    have h2' := himp hrec
    rw [← ht, List.append_assoc] at h2'
    rw [Bool.eq_false_iff] at h2' ⊢
    intro hc
    exact h2' ((pathStartsWith_append_iff localPath r.1 (t ++ [pathSep])).mpr hc)

theorem prunePass_sound (localPath : Path) (entries : List (Path × Bool))
    (dd : Path) (j : Journal) (r : Path × Bool) (hr : r ∈ j)
    (hno : ∀ e ∈ entries, localPath ++ r.1 ≠ e.1 ∧
      (e.2 = true → pathStartsWith (localPath ++ r.1) (e.1 ++ [pathSep]) = false)) :
    r ∈ prunePass localPath entries dd j := by
  induction entries generalizing dd j with
  | nil => exact hr
  | cons e rest ih =>
    unfold prunePass
    split_ifs with h1 h2 he2
    · exact ih _ _ hr (fun x hx => hno x (List.mem_cons_of_mem e hx))
    · exact ih _ _ hr (fun x hx => hno x (List.mem_cons_of_mem e hx))
    · exact ih _ _
        (prunePass_sound_delete localPath e j r hr (by simpa using h1)
          (hno e (List.mem_cons_self e rest)).1 (hno e (List.mem_cons_self e rest)).2)
        (fun x hx => hno x (List.mem_cons_of_mem e hx))
    · exact ih _ _
        (prunePass_sound_delete localPath e j r hr (by simpa using h1)
          (hno e (List.mem_cons_self e rest)).1 (hno e (List.mem_cons_self e rest)).2)
        (fun x hx => hno x (List.mem_cons_of_mem e hx))

theorem prunePass_complete (localPath : Path) (full : List (Path × Bool))
    (hnoclash : ∀ a ∈ full.map Prod.fst, ∀ d ∈ full, d.2 = true →
      pathStartsWith a d.1 = true →
      a = d.1 ∨ pathStartsWith a (d.1 ++ [pathSep]) = true) :
    ∀ (entries : List (Path × Bool)) (dd : Path) (j : Journal) (r : Path × Bool),
    (∀ e ∈ entries, e ∈ full) →
    (dd = [] ∨ (dd, true) ∈ full) →
    (dd ≠ [] → ∀ r' ∈ j, ¬(localPath ++ r'.1 = dd ∨
      pathStartsWith (localPath ++ r'.1) (dd ++ [pathSep]) = true)) →
    r ∈ j →
    (∃ e ∈ entries, e.1 = localPath ++ r.1) →
    r ∉ prunePass localPath entries dd j := by
  intro entries
  induction entries with
  | nil =>
    rintro dd j r - - - - ⟨e, he, -⟩
    cases he
  | cons e rest ih =>
    rintro dd j r hsubF hddOK hcov hr hwit
    unfold prunePass
    split_ifs with h1 h2 he2
    · rcases hwit with ⟨e', he', heq⟩
      rcases List.mem_cons.mp he' with rfl | hrest
      · exfalso
        have hsw : pathStartsWith e'.1 localPath = true := by
          rw [heq, pathStartsWith_iff]
          exact List.prefix_append _ _
        simp [hsw] at h1
      · exact ih dd j r (fun x hx => hsubF x (List.mem_cons_of_mem e hx))
          hddOK hcov hr ⟨e', hrest, heq⟩
    · rcases hwit with ⟨e', he', heq⟩
      rw [Bool.and_eq_true] at h2
      obtain ⟨hddne', hsw⟩ := h2
      have hddne : dd ≠ [] := by
        simpa [List.isEmpty_iff] using hddne'
      rcases List.mem_cons.mp he' with rfl | hrest
      · exfalso
        have hdmem : (dd, true) ∈ full := hddOK.resolve_left hddne
        have hclash := hnoclash e'.1
          (List.mem_map_of_mem Prod.fst (hsubF e' (List.mem_cons_self e' rest)))
          (dd, true) hdmem rfl hsw
        have hcv := hcov hddne r hr
        rw [← heq] at hcv
        exact hcv hclash
      · exact ih dd j r (fun x hx => hsubF x (List.mem_cons_of_mem e hx))
          hddOK hcov hr ⟨e', hrest, heq⟩
    · -- process a directory entry: deletedDir becomes e.1
      rcases hwit with ⟨e', he', heq⟩
      have hLP : pathStartsWith e.1 localPath = true := by simpa using h1
      obtain ⟨t, ht⟩ := (pathStartsWith_iff _ _).mp hLP
      have hdrop : e.1.drop localPath.length = t := by
        rw [← ht]
        exact List.drop_left _ _
      rcases List.mem_cons.mp he' with rfl | hrest
      · intro hin
        have hin' := prunePass_subset localPath rest _ _ r hin
        rw [mem_deleteFileRecord] at hin'
        obtain ⟨-, hne, -⟩ := hin'
        apply hne
        rw [hdrop]
        have hca : localPath ++ t = localPath ++ r.1 := by rw [ht, heq]
        exact (List.append_cancel_left hca).symm
      · by_cases hrj : r ∈ deleteFileRecord j (e.1.drop localPath.length) e.2
        · refine ih _ _ r (fun x hx => hsubF x (List.mem_cons_of_mem e hx))
            ?_ ?_ hrj ⟨e', hrest, heq⟩
          · right
            have hee : e = (e.1, true) := by rw [← he2]
            exact hee ▸ hsubF e (List.mem_cons_self e rest)
          · intro hdum r' hr'
            rw [mem_deleteFileRecord] at hr'
            obtain ⟨-, hne1, himp⟩ := hr'
            rintro (hc | hc)
            · apply hne1
              rw [hdrop]
              have hca : localPath ++ r'.1 = localPath ++ t := by rw [hc, ← ht]
              exact List.append_cancel_left hca
            · have hpref := himp he2
              rw [hdrop] at hpref
              rw [← ht, List.append_assoc] at hc
              have hcc :=
                (pathStartsWith_append_iff localPath r'.1 (t ++ [pathSep])).mp hc
              rw [hpref] at hcc
              cases hcc
        · intro hin
          exact hrj (prunePass_subset localPath rest _ _ r hin)
    · -- process a file entry: deletedDir is unchanged
      rcases hwit with ⟨e', he', heq⟩
      have hLP : pathStartsWith e.1 localPath = true := by simpa using h1
      obtain ⟨t, ht⟩ := (pathStartsWith_iff _ _).mp hLP
      have hdrop : e.1.drop localPath.length = t := by
        rw [← ht]
        exact List.drop_left _ _
      rcases List.mem_cons.mp he' with rfl | hrest
      · intro hin
        have hin' := prunePass_subset localPath rest _ _ r hin
        rw [mem_deleteFileRecord] at hin'
        obtain ⟨-, hne, -⟩ := hin'
        apply hne
        rw [hdrop]
        have hca : localPath ++ t = localPath ++ r.1 := by rw [ht, heq]
        exact (List.append_cancel_left hca).symm
      · by_cases hrj : r ∈ deleteFileRecord j (e.1.drop localPath.length) e.2
        · refine ih _ _ r (fun x hx => hsubF x (List.mem_cons_of_mem e hx))
            hddOK ?_ hrj ⟨e', hrest, heq⟩
          intro hne r' hr'
          rw [mem_deleteFileRecord] at hr'
          exact hcov hne r' hr'.1
        · intro hin
          exact hrj (prunePass_subset localPath rest _ _ r hin)


def c7env : LocalRemoveEnv :=
  { abortRequested := false, moveToTrash := false, clash := false
  , isDirectory := true, dirExists := true, fileExists := false
  , trashOk := true, fsRemoveSuccess := false
  , fsDeleted := [(pstr "L/a/b", true), (pstr "L/a/b/x", false), (pstr "L/a/bc", false)]
  , fileRemoveOk := true }

def c7j : Journal := [(pstr "a/b", true), (pstr "a/b/x", false), (pstr "a/bc", false)]

/-- C7 counterexample: `FileSystem::removeRecursively` deleted the sibling
`L/a/bc` before the directory `L/a/b` (so `a/bc` follows `a/b` in the
prepend-ordered deleted list); the dedup test
`it.first.startsWith(deletedDir)` is a raw string-prefix test, so the
entry `L/a/bc` is skipped as if it were inside the deleted directory
`L/a/b`, and the journal record `a/bc` of a path that **was** deleted
from disk is retained — the claim's "records of exactly the paths that
were actually deleted are removed" fails at this input (the job does
report `NormalError`). -/
theorem c7_counterexample :
    (propagateLocalRemoveStart c7env (pstr "L/") (pstr "a") c7j).1
      = some SyncStatus.NormalError ∧
    (pstr "L/a/bc", false) ∈ c7env.fsDeleted ∧
    (pstr "a/bc", false) ∈ (propagateLocalRemoveStart c7env (pstr "L/") (pstr "a") c7j).2 := by
  decide

/-- C7 amended: on a directory `PropagateLocalRemove` whose recursive
filesystem removal fails, the job completes with `NormalError`, a journal
record of a path that was not deleted from disk is never removed
(soundness; under the filesystem consistency assumption that a deleted
directory's journal descendants were all deleted from disk), and every
record of a disk-deleted path is removed **provided** no deleted entry's
absolute path extends a deleted directory's path as a plain string prefix
without the separator (no sibling-name prefix clash, e.g. `a/bc` vs
directory `a/b`) — without that proviso the record may be retained, as
the counterexample shows. -/
theorem c7_partial_remove_amended
    (env : LocalRemoveEnv) (localPath originalFile : Path) (j : Journal)
    (hab : env.abortRequested = false) (hclash : env.clash = false)
    (htrash : env.moveToTrash = false) (hdir : env.isDirectory = true)
    (hex : env.dirExists = true) (hfail : env.fsRemoveSuccess = false)
    (hclosed : ∀ d ∈ env.fsDeleted, d.2 = true →
      ∀ r ∈ j, pathStartsWith (localPath ++ r.1) (d.1 ++ [pathSep]) = true →
        (localPath ++ r.1) ∈ env.fsDeleted.map Prod.fst)
    (hnoclash : ∀ a ∈ env.fsDeleted.map Prod.fst, ∀ d ∈ env.fsDeleted,
      d.2 = true → pathStartsWith a d.1 = true →
      a = d.1 ∨ pathStartsWith a (d.1 ++ [pathSep]) = true) :
    (propagateLocalRemoveStart env localPath originalFile j).1
      = some SyncStatus.NormalError ∧
    (∀ r ∈ j, (localPath ++ r.1) ∉ env.fsDeleted.map Prod.fst →
      r ∈ (propagateLocalRemoveStart env localPath originalFile j).2) ∧
    (∀ r ∈ j, (localPath ++ r.1) ∈ env.fsDeleted.map Prod.fst →
      r ∉ (propagateLocalRemoveStart env localPath originalFile j).2) := by
  have hrun : propagateLocalRemoveStart env localPath originalFile j
      = (some SyncStatus.NormalError,
          removeRecursivelyPrune localPath env.fsDeleted j) := by
    simp [propagateLocalRemoveStart, hab, hclash, htrash, hdir, hex, hfail]
  refine ⟨by rw [hrun], ?_, ?_⟩
  · intro r hr hnot
    rw [hrun]
    apply prunePass_sound _ _ _ _ _ hr
    intro e he
    constructor
    · intro hc
      exact hnot (by rw [hc]; exact List.mem_map_of_mem Prod.fst he)
    · intro hdir2
      cases hcase : pathStartsWith (localPath ++ r.1) (e.1 ++ [pathSep]) with
      | false => rfl
      | true => exact absurd (hclosed e he hdir2 r hr hcase) hnot
  · intro r hr hmem
    rw [hrun]
    obtain ⟨e, he, heq⟩ := List.mem_map.mp hmem
    exact prunePass_complete localPath env.fsDeleted hnoclash env.fsDeleted [] j r
      (fun x hx => hx) (Or.inl rfl) (fun hc => absurd rfl hc) hr ⟨e, he, heq⟩

def c7wEnv : LocalRemoveEnv :=
  { abortRequested := false, moveToTrash := false, clash := false
  , isDirectory := true, dirExists := true, fileExists := false
  , trashOk := true, fsRemoveSuccess := false
  , fsDeleted := [(pstr "L/a/b", true), (pstr "L/a/b/x", false)]
  , fileRemoveOk := true }

def c7wJ : Journal := [(pstr "a/b", true), (pstr "a/b/x", false), (pstr "a/c", false)]

theorem c7_partial_remove_amended_witness :
    (propagateLocalRemoveStart c7wEnv (pstr "L/") (pstr "a") c7wJ).1
      = some SyncStatus.NormalError ∧
    (pstr "a/c", false) ∈ (propagateLocalRemoveStart c7wEnv (pstr "L/") (pstr "a") c7wJ).2 ∧
    (pstr "a/b", true) ∉ (propagateLocalRemoveStart c7wEnv (pstr "L/") (pstr "a") c7wJ).2 := by
  obtain ⟨hs, hsound, hcomp⟩ := c7_partial_remove_amended c7wEnv (pstr "L/") (pstr "a") c7wJ
    (by decide) (by decide) (by decide) (by decide) (by decide) (by decide)
    (by decide) (by decide)
  exact ⟨hs, hsound (pstr "a/c", false) (by decide) (by decide),
    hcomp (pstr "a/b", true) (by decide) (by decide)⟩

/-! ## PropagateLocalRename lemmas (C8) -/

theorem mem_setFileRecordJ (j : Journal) (rec : Path × Bool) (x : Path × Bool) :
    x ∈ setFileRecordJ j rec ↔ (x ∈ j ∧ x.1 ≠ rec.1) ∨ x = rec := by
  unfold setFileRecordJ
  rw [List.mem_append]
  constructor
  · rintro (h | h)
    · obtain ⟨h1, h2⟩ := List.mem_filter.mp h
      exact Or.inl ⟨h1, by simpa using h2⟩
    · exact Or.inr (by simpa using h)
  · rintro (⟨h1, h2⟩ | rfl)
    · exact Or.inl (List.mem_filter.mpr ⟨h1, by simpa using h2⟩)
    · exact Or.inr (by simp)

theorem deleteFileRecord_nodup (j : Journal) (p : Path) (rec : Bool)
    (h : (j.map Prod.fst).Nodup) :
    ((deleteFileRecord j p rec).map Prod.fst).Nodup :=
  h.sublist (List.Sublist.map Prod.fst (List.filter_sublist j))

theorem setFileRecordJ_nodup (j : Journal) (rec : Path × Bool)
    (h : (j.map Prod.fst).Nodup) :
    ((setFileRecordJ j rec).map Prod.fst).Nodup := by
  unfold setFileRecordJ
  rw [List.map_append]
  refine List.Nodup.append ?_ ?_ ?_
  · exact h.sublist (List.Sublist.map Prod.fst (List.filter_sublist j))
  · simp
  · intro a ha hb
    simp only [List.map_cons, List.map_nil, List.mem_singleton] at hb
    subst hb
    obtain ⟨x, hx, hxa⟩ := List.mem_map.mp ha
    have h2 := (List.mem_filter.mp hx).2
    rw [hxa] at h2
    simp at h2

theorem getFileRecord_of_nodup (j : Journal) (r : Path × Bool)
    (hnd : (j.map Prod.fst).Nodup) (hr : r ∈ j) :
    getFileRecord j r.1 = some r := by
  unfold getFileRecord
  induction j with
  | nil => cases hr
  | cons x xs ih =>
    rw [List.map_cons, List.nodup_cons] at hnd
    rcases List.mem_cons.mp hr with rfl | hmem
    · exact find?_cons_true _ _ _ (by simp)
    · have hx : (x.1 == r.1) = false := by
        rw [beq_eq_false_iff_ne]
        intro hc
        exact hnd.1 (by rw [hc]; exact List.mem_map_of_mem Prod.fst hmem)
      rw [find?_cons_false (fun z => z.1 == r.1) x xs hx]
      exact ih hnd.2 hmem

theorem walk_preserves (oldFile target : Path) (ls : List (Path × Bool)) :
    ∀ (st : RenameWalkState) (r : Path × Bool), r ∈ st.journal →
    (∀ e ∈ ls, r.1 ≠ e.1 ∧ r.1 ≠ target ++ e.1.drop oldFile.length) →
    r ∈ (ls.foldl (renameWalkStep oldFile target) st).journal := by
  induction ls with
  | nil => intro st r hr _; exact hr
  | cons e rest ih =>
    intro st r hr hno
    rw [List.foldl_cons]
    refine ih _ r ?_ (fun x hx => hno x (List.mem_cons_of_mem e hx))
    unfold renameWalkStep
    split
    · exact hr
    · split
      · exact hr
      · exact (mem_setFileRecordJ _ _ _).mpr (Or.inl
          ⟨(mem_deleteFileRecord _ _ _ _).mpr
            ⟨hr, (hno e (List.mem_cons_self e rest)).1, fun h => nomatch h⟩,
           (hno e (List.mem_cons_self e rest)).2⟩)

theorem walk_not_mem (oldFile target : Path) (ls : List (Path × Bool)) :
    ∀ (st : RenameWalkState) (p : Path),
    (∀ b, (p, b) ∉ st.journal) →
    (∀ e ∈ ls, p ≠ target ++ e.1.drop oldFile.length) →
    ∀ b, (p, b) ∉ (ls.foldl (renameWalkStep oldFile target) st).journal := by
  induction ls with
  | nil => intro st p h _ b; exact h b
  | cons e rest ih =>
    intro st p h hno
    rw [List.foldl_cons]
    refine ih _ p ?_ (fun x hx => hno x (List.mem_cons_of_mem e hx))
    intro b'
    unfold renameWalkStep
    split
    · exact h b'
    · split
      · exact h b'
      · intro hmem
        rcases (mem_setFileRecordJ _ _ _).mp hmem with ⟨hmem2, -⟩ | heq
        · exact h b' ((mem_deleteFileRecord _ _ _ _).mp hmem2).1
        · exact hno e (List.mem_cons_self e rest) (congrArg Prod.fst heq)

theorem walk_main (oldFile target : Path)
    (hdisj : ∀ p q : Path, oldFile ++ [pathSep] ++ p ≠ target ++ q) :
    ∀ (ls : List (Path × Bool)) (j : Journal),
    (∀ r ∈ ls, r ∈ j) →
    (∀ r ∈ ls, ∃ p, r.1 = oldFile ++ [pathSep] ++ p) →
    (ls.map Prod.fst).Nodup →
    (j.map Prod.fst).Nodup →
    (ls.foldl (renameWalkStep oldFile target) { journal := j, ok := true }).ok = true ∧
    (∀ e ∈ ls, (target ++ e.1.drop oldFile.length, e.2)
      ∈ (ls.foldl (renameWalkStep oldFile target) { journal := j, ok := true }).journal) ∧
    (∀ e ∈ ls, ∀ b, (e.1, b)
      ∉ (ls.foldl (renameWalkStep oldFile target) { journal := j, ok := true }).journal) := by
  intro ls
  induction ls with
  | nil =>
    intro j _ _ _ _
    exact ⟨rfl, by simp, by simp⟩
  | cons e rest ih =>
    intro j hsub hpre hndls hndj
    obtain ⟨pe, hpe⟩ := hpre e (List.mem_cons_self e rest)
    have hej : e ∈ j := hsub e (List.mem_cons_self e rest)
    have hdropE : e.1.drop oldFile.length = [pathSep] ++ pe := by
      rw [hpe, List.append_assoc]
      exact List.drop_left _ _
    have hskip : ¬ (e.1 == target ++ e.1.drop oldFile.length) = true := by
      simp only [beq_iff_eq]
      rw [hdropE, hpe]
      exact hdisj pe ([pathSep] ++ pe)
    have hfind : getFileRecord j e.1 = some e := getFileRecord_of_nodup j e hndj hej
    have hstepeq : renameWalkStep oldFile target { journal := j, ok := true } e =
        { journal := setFileRecordJ (deleteFileRecord j e.1 false)
            (target ++ e.1.drop oldFile.length, e.2), ok := true } := by
      unfold renameWalkStep
      rw [if_neg hskip]
      rw [show ({ journal := j, ok := true } : RenameWalkState).journal = j from rfl]
      rw [hfind]
    rw [List.foldl_cons, hstepeq]
    have hndj2 : ((deleteFileRecord j e.1 false).map Prod.fst).Nodup :=
      deleteFileRecord_nodup j e.1 false hndj
    have hndj3 : ((setFileRecordJ (deleteFileRecord j e.1 false)
        (target ++ e.1.drop oldFile.length, e.2)).map Prod.fst).Nodup :=
      setFileRecordJ_nodup _ _ hndj2
    rw [List.map_cons, List.nodup_cons] at hndls
    have hfstne : ∀ x ∈ rest, x.1 ≠ e.1 := by
      intro x hx hc
      exact hndls.1 (by rw [← hc]; exact List.mem_map_of_mem Prod.fst hx)
    have hsub2 : ∀ x ∈ rest, x ∈ setFileRecordJ (deleteFileRecord j e.1 false)
        (target ++ e.1.drop oldFile.length, e.2) := by
      intro x hx
      refine (mem_setFileRecordJ _ _ _).mpr (Or.inl ⟨?_, ?_⟩)
      · exact (mem_deleteFileRecord _ _ _ _).mpr
          ⟨hsub x (List.mem_cons_of_mem e hx), hfstne x hx, fun h => nomatch h⟩
      · obtain ⟨px, hpx⟩ := hpre x (List.mem_cons_of_mem e hx)
        show x.1 ≠ target ++ e.1.drop oldFile.length
        rw [hpx]
        exact hdisj px _
    obtain ⟨hok, hpres, habs⟩ := ih (setFileRecordJ (deleteFileRecord j e.1 false)
        (target ++ e.1.drop oldFile.length, e.2)) hsub2
      (fun x hx => hpre x (List.mem_cons_of_mem e hx)) hndls.2 hndj3
    refine ⟨hok, ?_, ?_⟩
    · intro x hx
      rcases List.mem_cons.mp hx with rfl | hrest
      · refine walk_preserves oldFile target rest _ _ ?_ ?_
        · exact (mem_setFileRecordJ _ _ _).mpr (Or.inr rfl)
        · intro y hy
          obtain ⟨py, hpy⟩ := hpre y (List.mem_cons_of_mem x hy)
          constructor
          · intro hc
            exact hdisj py (x.1.drop oldFile.length) (by rw [← hpy]; exact hc.symm)
          · intro hc
            have hdd : x.1.drop oldFile.length = y.1.drop oldFile.length :=
              List.append_cancel_left hc
            have hdropY : y.1.drop oldFile.length = [pathSep] ++ py := by
              rw [hpy, List.append_assoc]
              exact List.drop_left _ _
            have hpepy : pe = py := by
              have h2 := hdd
              rw [hdropE, hdropY] at h2
              exact List.append_cancel_left h2
            have he1y1 : x.1 = y.1 := by rw [hpe, hpy, hpepy]
            exact hfstne y hy he1y1.symm
      · exact hpres x hrest
    · intro x hx b
      rcases List.mem_cons.mp hx with rfl | hrest
      · refine walk_not_mem oldFile target rest _ x.1 ?_ ?_ b
        · intro b2 hmem
          rcases (mem_setFileRecordJ _ _ _).mp hmem with ⟨hmem2, -⟩ | heq
          · exact ((mem_deleteFileRecord _ _ _ _).mp hmem2).2.1 rfl
          · have hx1 : x.1 = target ++ x.1.drop oldFile.length := congrArg Prod.fst heq
            exact hskip (by simpa using hx1)
        · intro y hy hc
          rw [hpe] at hc
          exact hdisj pe _ hc
      · exact habs x hrest b

theorem find?_path_append_single (rd : List (Path × Path)) (k v : Path)
    (hall : ∀ x ∈ rd, ¬ (x.1 == k) = true) :
    List.find? (fun x => x.1 == k) (rd ++ [(k, v)]) = some (k, v) := by
  induction rd with
  | nil => simp
  | cons z zs ih =>
    rw [List.cons_append, find?_cons_false (fun x => x.1 == k) z (zs ++ [(k, v)])
      (by simpa using hall z (List.mem_cons_self z zs))]
    exact ih (fun x hx => hall x (List.mem_cons_of_mem z hx))

theorem find?_path_map_replace (rd : List (Path × Path)) (k v : Path)
    (h : rd.any (fun x => x.1 == k) = true) :
    List.find? (fun x => x.1 == k)
      (rd.map (fun x => if x.1 == k then (k, v) else x)) = some (k, v) := by
  induction rd with
  | nil => cases h
  | cons z zs ih =>
    rw [List.map_cons]
    by_cases hz : (z.1 == k) = true
    · rw [if_pos hz]
      exact find?_cons_true _ _ _ (by simp)
    · have hz2 : (z.1 == k) = false := by simpa using hz
      rw [if_neg hz, find?_cons_false (fun x => x.1 == k)
        z (zs.map (fun x => if x.1 == k then (k, v) else x)) hz2]
      rw [List.any_cons, hz2, Bool.false_or] at h
      exact ih h

theorem renamedLookup_insert_self (rd : List (Path × Path)) (k v : Path) :
    renamedLookup (renamedInsert rd k v) k = some v := by
  unfold renamedLookup renamedInsert
  by_cases h : rd.any (fun x => x.1 == k) = true
  · rw [if_pos h, find?_path_map_replace rd k v h]
    rfl
  · have hall : ∀ x ∈ rd, ¬ (x.1 == k) = true :=
      fun x hx hc => h (List.any_eq_true.mpr ⟨x, hx, hc⟩)
    rw [if_neg h, find?_path_append_single rd k v hall]
    rfl

/-- `PropagateLocalRename::start` environment for a plain successful
rename of local directory `A` to `B`: no abort, the `QFile::rename`
succeeded, no case clash, the record was not moved beforehand, and the
pin-state and selective-sync bookkeeping succeed. -/
def c8env : LocalRenameEnv :=
  { abortRequested := false, itemFile := pstr "A", renameTarget := pstr "B"
  , originalFile := pstr "A", previousNameInDb := pstr "A"
  , fileAlreadyMoved := false, caseInsensitiveDifferent := false
  , caseClash := false, renameOk := true, isDirectory := true
  , pinSetAndNotInherited := false, pinSetOk := true
  , adjustSelectiveSyncOk := true }

/-- C8: for every run of `PropagateLocalRename::start` renaming local
directory `A` to `B` (the filesystem rename succeeded, no case clash, no
prior move) over a journal that holds one record per path and contains
the child record `A/x.txt`, the job finishes with `Success`, the
resulting journal contains a record for `B/x.txt` (directory flag
preserved) and no record for `A/x.txt`, and `_renamedDirectories` maps
`A` to `B`. -/
theorem c8_rename_directory_rewrites_journal (j : Journal)
    (rd : List (Path × Path))
    (hchild : (pstr "A/x.txt", false) ∈ j)
    (hnodup : (j.map Prod.fst).Nodup) :
    (propagateLocalRenameStart c8env j rd).1 = some SyncStatus.Success ∧
    (pstr "B/x.txt", false) ∈ (propagateLocalRenameStart c8env j rd).2.1 ∧
    (∀ b, (pstr "A/x.txt", b) ∉ (propagateLocalRenameStart c8env j rd).2.1) ∧
    renamedLookup (propagateLocalRenameStart c8env j rd).2.2 (pstr "A")
      = some (pstr "B") := by
  have hdisj : ∀ p q : Path, pstr "A" ++ [pathSep] ++ p ≠ pstr "B" ++ q := by
    intro p q h
    injection h with h1 h2
    exact absurd h1 (by decide)
  have hnd2 : ((deleteFileRecord j (pstr "A") false).map Prod.fst).Nodup :=
    deleteFileRecord_nodup j (pstr "A") false hnodup
  have hchild2 : (pstr "A/x.txt", false) ∈ deleteFileRecord j (pstr "A") false :=
    (mem_deleteFileRecord _ _ _ _).mpr ⟨hchild, by decide, fun h => nomatch h⟩
  have hchildBelow : (pstr "A/x.txt", false)
      ∈ getFilesBelowPath (deleteFileRecord j (pstr "A") false) (pstr "A") :=
    List.mem_filter.mpr ⟨hchild2, by decide⟩
  have hpreBelow : ∀ r ∈ getFilesBelowPath (deleteFileRecord j (pstr "A") false)
      (pstr "A"), ∃ p, r.1 = pstr "A" ++ [pathSep] ++ p := by
    intro r hr
    have hsw := (List.mem_filter.mp hr).2
    obtain ⟨t, ht⟩ := (pathStartsWith_iff _ _).mp hsw
    exact ⟨t, ht.symm⟩
  have hndBelow : ((getFilesBelowPath (deleteFileRecord j (pstr "A") false)
      (pstr "A")).map Prod.fst).Nodup :=
    hnd2.sublist (List.Sublist.map Prod.fst (List.filter_sublist _))
  obtain ⟨hok, hpres, habs⟩ := walk_main (pstr "A") (pstr "B") hdisj
    (getFilesBelowPath (deleteFileRecord j (pstr "A") false) (pstr "A"))
    (deleteFileRecord j (pstr "A") false)
    (fun r hr => (List.mem_filter.mp hr).1) hpreBelow hndBelow hnd2
  have hrun : propagateLocalRenameStart c8env j rd =
      (some SyncStatus.Success,
       ((getFilesBelowPath (deleteFileRecord j (pstr "A") false) (pstr "A")).foldl
         (renameWalkStep (pstr "A") (pstr "B"))
         { journal := deleteFileRecord j (pstr "A") false, ok := true }).journal,
       renamedInsert rd (pstr "A") (pstr "B")) := by
    simp [propagateLocalRenameStart, c8env, hok]
  refine ⟨?_, ?_, ?_, ?_⟩
  · rw [hrun]
  · rw [hrun]
    have h2 := hpres (pstr "A/x.txt", false) hchildBelow
    have hname : pstr "B" ++ (pstr "A/x.txt", false).1.drop (pstr "A").length
        = pstr "B/x.txt" := by decide
    rw [hname] at h2
    exact h2
  · intro b
    rw [hrun]
    exact habs (pstr "A/x.txt", false) hchildBelow b
  · rw [hrun]
    exact renamedLookup_insert_self rd (pstr "A") (pstr "B")

def c8j : Journal :=
  [(pstr "A", true), (pstr "A/x.txt", false), (pstr "other", false)]

theorem c8_rename_directory_rewrites_journal_witness :
    (propagateLocalRenameStart c8env c8j []).1 = some SyncStatus.Success ∧
    (pstr "B/x.txt", false) ∈ (propagateLocalRenameStart c8env c8j []).2.1 ∧
    (pstr "A/x.txt", false) ∉ (propagateLocalRenameStart c8env c8j []).2.1 ∧
    (pstr "A/x.txt", true) ∉ (propagateLocalRenameStart c8env c8j []).2.1 ∧
    renamedLookup (propagateLocalRenameStart c8env c8j []).2.2 (pstr "A")
      = some (pstr "B") := by
  obtain ⟨h1, h2, h3, h4⟩ :=
    c8_rename_directory_rewrites_journal c8j [] (by decide) (by decide)
  exact ⟨h1, h2, h3 false, h3 true, h4⟩

/-! ## Round-trip lemmas (C1) -/

open FolderMetadata

theorem jinsert_append {α : Type} (o : List (String × α)) (k : String) (v : α)
    (h : ∀ kv ∈ o, ¬ kv.1 = k) : jinsert o k v = o ++ [(k, v)] := by
  have hany : o.any (fun kv => kv.1 == k) = false := by
    rw [List.any_eq_false]
    intro kv hkv
    simpa using h kv hkv
  simp [jinsert, hany]

theorem parse_roundtrip_file (f : EncryptedFile)
    (ho : ¬ f.originalFilename = "") (hd : isDirMimetype f.mimetype = false) :
    parseEncryptedFileFromJson f.encryptedFilename
      { key := f.encryptionKey
      , filename := f.originalFilename
      , mimetype := f.mimetype
      , initializationVector := f.initializationVector
      , authenticationTag := f.authenticationTag } = f := by
  have hoB : f.originalFilename.isEmpty = false := by
    rw [Bool.eq_false_iff]
    intro hb
    exact ho ((String.isEmpty_iff f.originalFilename).mp hb)
  have hmB : (f.mimetype == "inode/directory") = false := by
    unfold isDirMimetype at hd
    exact (Bool.or_eq_false_iff.mp (Bool.or_eq_false_iff.mp hd).1).2
  cases f with
  | mk ef og k ivv tg mt =>
    simp only at hoB hmB
    simp [FolderMetadata.parseEncryptedFileFromJson, hoB, hmB]

theorem parseFilesFold (l : List EncryptedFile) :
    ∀ (acc : List EncryptedFile),
    (∀ f ∈ l, ¬ f.originalFilename = "" ∧ isDirMimetype f.mimetype = false) →
    (l.map (fun f => (f.encryptedFilename,
      ({ key := f.encryptionKey
       , filename := f.originalFilename
       , mimetype := f.mimetype
       , initializationVector := f.initializationVector
       , authenticationTag := f.authenticationTag } : FileJson)))).foldl
      (fun fs kv =>
        let pf := parseEncryptedFileFromJson kv.1 kv.2
        if !pf.originalFilename.isEmpty then fs ++ [pf] else fs) acc
    = acc ++ l := by
  induction l with
  | nil => intro acc _; simp
  | cons f rest ih =>
    intro acc hl
    obtain ⟨ho, hd⟩ := hl f (List.mem_cons_self f rest)
    have hpf := parse_roundtrip_file f ho hd
    have hoB : f.originalFilename.isEmpty = false := by
      rw [Bool.eq_false_iff]
      intro hb
      exact ho ((String.isEmpty_iff f.originalFilename).mp hb)
    simp only [List.map_cons, List.foldl_cons]
    rw [hpf, hoB]
    simp only [Bool.not_false, if_true]
    rw [ih (acc ++ [f]) (fun x hx => hl x (List.mem_cons_of_mem f hx))]
    exact (List.append_cons acc f rest).symm

theorem folderFold (l : List EncryptedFile) :
    ∀ (acc : List EncryptedFile),
    (∀ f ∈ l, ¬ f.originalFilename = "" ∧ f.mimetype = "" ∧ f.encryptionKey = []
      ∧ f.initializationVector = [] ∧ f.authenticationTag = []) →
    (l.map (fun f => (f.encryptedFilename, f.originalFilename))).foldl
      (fun fs kv =>
        if !kv.2.isEmpty then
          fs ++ [{ EncryptedFile.default with
                     encryptedFilename := kv.1, originalFilename := kv.2 }]
        else fs) acc
    = acc ++ l := by
  induction l with
  | nil => intro acc _; simp
  | cons f rest ih =>
    intro acc hl
    obtain ⟨ho, hm, hk, hi, ht⟩ := hl f (List.mem_cons_self f rest)
    have hoB : f.originalFilename.isEmpty = false := by
      rw [Bool.eq_false_iff]
      intro hb
      exact ho ((String.isEmpty_iff f.originalFilename).mp hb)
    have hrebuild : ({ EncryptedFile.default with
        encryptedFilename := f.encryptedFilename
      , originalFilename := f.originalFilename } : EncryptedFile) = f := by
      cases f with
      | mk ef og k ivv tg mt =>
        obtain rfl : mt = "" := hm
        obtain rfl : k = ([] : ByteArr) := hk
        obtain rfl : ivv = ([] : ByteArr) := hi
        obtain rfl : tg = ([] : ByteArr) := ht
        rfl
    simp only [List.map_cons, List.foldl_cons]
    rw [hoB]
    simp only [Bool.not_false, if_true]
    rw [hrebuild, ih (acc ++ [f]) (fun x hx => hl x (List.mem_cons_of_mem f hx))]
    exact (List.append_cons acc f rest).symm

theorem usersInsert_foldl (us : List FolderUser) :
    ∀ (acc : List FolderUser),
    ((us.map FolderUser.userId).Nodup) →
    (∀ u ∈ us, ∀ a ∈ acc, ¬ a.userId = u.userId) →
    us.foldl usersInsert acc = acc ++ us := by
  induction us with
  | nil => intro acc _ _; simp
  | cons u rest ih =>
    intro acc hnd hdis
    rw [List.map_cons, List.nodup_cons] at hnd
    have hany : acc.any (fun x => x.userId == u.userId) = false := by
      rw [List.any_eq_false]
      intro a ha
      simpa using hdis u (List.mem_cons_self u rest) a ha
    have hstep : usersInsert acc u = acc ++ [u] := by
      simp [usersInsert, hany]
    have hdis2 : ∀ v ∈ rest, ∀ a ∈ acc ++ [u], ¬ a.userId = v.userId := by
      intro v hv a ha hc
      rcases List.mem_append.mp ha with h1 | h2
      · exact hdis v (List.mem_cons_of_mem u hv) a h1 hc
      · rw [List.mem_singleton] at h2
        subst h2
        exact hnd.1 (by rw [hc]; exact List.mem_map_of_mem FolderUser.userId hv)
    rw [List.foldl_cons, hstep, ih (acc ++ [u]) hnd.2 hdis2]
    exact (List.append_cons acc u rest).symm

theorem kinsert_foldl (cs : List ByteArr) :
    ∀ (acc : List ByteArr),
    cs.Nodup →
    (∀ c ∈ cs, ¬ c = []) →
    (∀ c ∈ cs, c ∉ acc) →
    cs.foldl (fun s c => if !c.isEmpty then kinsert s c else s) acc = acc ++ cs := by
  induction cs with
  | nil => intro acc _ _ _; simp
  | cons c rest ih =>
    intro acc hnd hne hdis
    rw [List.nodup_cons] at hnd
    have hcB : c.isEmpty = false := by
      rw [Bool.eq_false_iff]
      intro hb
      exact hne c (List.mem_cons_self c rest) (List.isEmpty_iff.mp hb)
    have hcmem : c ∉ acc := hdis c (List.mem_cons_self c rest)
    have hstep : kinsert acc c = acc ++ [c] := by
      simp [kinsert, hcmem]
    have hdis2 : ∀ x ∈ rest, x ∉ acc ++ [c] := by
      intro x hx hmem
      rcases List.mem_append.mp hmem with h1 | h2
      · exact hdis x (List.mem_cons_of_mem c hx) h1
      · rw [List.mem_singleton] at h2
        subst h2
        exact hnd.1 hx
    simp only [List.foldl_cons]
    rw [hcB]
    simp only [Bool.not_false, if_true]
    rw [hstep, ih (acc ++ [c]) hnd.2
      (fun x hx => hne x (List.mem_cons_of_mem c hx)) hdis2]
    exact (List.append_cons acc c rest).symm

theorem encFilesFold (fs : List EncryptedFile) :
    ∀ (acc : List (String × FileJson) × List (String × String)),
    ((fs.map EncryptedFile.encryptedFilename).Nodup) →
    (∀ kv ∈ acc.1, ∀ f ∈ fs, ¬ kv.1 = f.encryptedFilename) →
    (∀ kv ∈ acc.2, ∀ f ∈ fs, ¬ kv.1 = f.encryptedFilename) →
    fs.foldl
      (fun (p : List (String × FileJson) × List (String × String)) f =>
        if isDirMimetype f.mimetype then
          (p.1, jinsert p.2 f.encryptedFilename f.originalFilename)
        else
          (jinsert p.1 f.encryptedFilename
            { key := f.encryptionKey
            , filename := f.originalFilename
            , mimetype := f.mimetype
            , initializationVector := f.initializationVector
            , authenticationTag := f.authenticationTag }, p.2)) acc
    = (acc.1 ++ (fs.filter (fun f => !isDirMimetype f.mimetype)).map
         (fun f => (f.encryptedFilename,
           ({ key := f.encryptionKey
            , filename := f.originalFilename
            , mimetype := f.mimetype
            , initializationVector := f.initializationVector
            , authenticationTag := f.authenticationTag } : FileJson))),
       acc.2 ++ (fs.filter (fun f => isDirMimetype f.mimetype)).map
         (fun f => (f.encryptedFilename, f.originalFilename))) := by
  induction fs with
  | nil => intro acc _ _ _; simp
  | cons f rest ih =>
    intro acc hnd hacc1 hacc2
    rw [List.map_cons, List.nodup_cons] at hnd
    by_cases hd : isDirMimetype f.mimetype = true
    · have hj : jinsert acc.2 f.encryptedFilename f.originalFilename
          = acc.2 ++ [(f.encryptedFilename, f.originalFilename)] :=
        jinsert_append _ _ _ (fun kv hkv => hacc2 kv hkv f (List.mem_cons_self f rest))
      have hc1 : ∀ kv ∈ acc.1, ∀ g ∈ rest, ¬ kv.1 = g.encryptedFilename :=
        fun kv hkv g hg => hacc1 kv hkv g (List.mem_cons_of_mem f hg)
      have hc2 : ∀ kv ∈ acc.2 ++ [(f.encryptedFilename, f.originalFilename)],
          ∀ g ∈ rest, ¬ kv.1 = g.encryptedFilename := by
        intro kv hkv g hg hc
        rcases List.mem_append.mp hkv with h1 | h2
        · exact hacc2 kv h1 g (List.mem_cons_of_mem f hg) hc
        · rw [List.mem_singleton] at h2
          subst h2
          refine hnd.1 ?_
          rw [show f.encryptedFilename = g.encryptedFilename from hc]
          exact List.mem_map_of_mem EncryptedFile.encryptedFilename hg
      simp only [List.foldl_cons]
      rw [if_pos hd, hj,
        ih (acc.1, acc.2 ++ [(f.encryptedFilename, f.originalFilename)]) hnd.2 hc1 hc2]
      simp [List.filter_cons, hd]
    · have hd2 : isDirMimetype f.mimetype = false := by
        rw [Bool.eq_false_iff]
        exact hd
      have hj : jinsert acc.1 f.encryptedFilename
          ({ key := f.encryptionKey
           , filename := f.originalFilename
           , mimetype := f.mimetype
           , initializationVector := f.initializationVector
           , authenticationTag := f.authenticationTag } : FileJson)
          = acc.1 ++ [(f.encryptedFilename,
              ({ key := f.encryptionKey
               , filename := f.originalFilename
               , mimetype := f.mimetype
               , initializationVector := f.initializationVector
               , authenticationTag := f.authenticationTag } : FileJson))] :=
        jinsert_append _ _ _ (fun kv hkv => hacc1 kv hkv f (List.mem_cons_self f rest))
      have hc1 : ∀ kv ∈ acc.1 ++ [(f.encryptedFilename,
            ({ key := f.encryptionKey
             , filename := f.originalFilename
             , mimetype := f.mimetype
             , initializationVector := f.initializationVector
             , authenticationTag := f.authenticationTag } : FileJson))],
          ∀ g ∈ rest, ¬ kv.1 = g.encryptedFilename := by
        intro kv hkv g hg hc
        rcases List.mem_append.mp hkv with h1 | h2
        · exact hacc1 kv h1 g (List.mem_cons_of_mem f hg) hc
        · rw [List.mem_singleton] at h2
          subst h2
          refine hnd.1 ?_
          rw [show f.encryptedFilename = g.encryptedFilename from hc]
          exact List.mem_map_of_mem EncryptedFile.encryptedFilename hg
      have hc2 : ∀ kv ∈ acc.2, ∀ g ∈ rest, ¬ kv.1 = g.encryptedFilename :=
        fun kv hkv g hg => hacc2 kv hkv g (List.mem_cons_of_mem f hg)
      simp only [List.foldl_cons]
      rw [if_neg (by rw [hd2]; exact fun hc => nomatch hc), hj,
        ih (acc.1 ++ [(f.encryptedFilename,
          ({ key := f.encryptionKey
           , filename := f.originalFilename
           , mimetype := f.mimetype
           , initializationVector := f.initializationVector
           , authenticationTag := f.authenticationTag } : FileJson))], acc.2) hnd.2 hc1 hc2]
      simp [List.filter_cons, hd2]

/-- Serialize-then-reparse composition (the round-trip law's subject). -/
def roundTrip (M : FolderMetadata) (iv freshKey : ByteArr) : Option FolderMetadata :=
  (M.encryptedMetadata iv freshKey).map (fun doc => M.reparse doc)

/-- A 16-byte metadata key. -/
def c1key : ByteArr := [1, 2, 3, 4, 5, 6, 7, 8, 9, 10, 11, 12, 13, 14, 15, 16]

/-- The folder user owning the account of `c1m`. -/
def c1u : FolderUser :=
  { userId := "alice"
  , certificatePem := { isNull := false, pub := some 5 }
  , encryptedMetadataKey := .wrap 5 c1key
  , encryptedFiledropKey := .empty }

/-- A directory entry carrying a mimetype and an encryption key: a state
`setupExistingMetadata` itself produces when migrating legacy metadata. -/
def c1f : EncryptedFile :=
  { encryptedFilename := "enc1"
  , originalFilename := "dir1"
  , encryptionKey := [9]
  , initializationVector := []
  , authenticationTag := []
  , mimetype := "inode/directory" }

/-- A valid top-level version-2.0 `FolderMetadata` whose only file entry
is the directory entry `c1f`. -/
def c1m : FolderMetadata :=
  { accountDavUser := "alice"
  , accountPubKey := 5
  , accountMnemonic := []
  , accountSkipChecksumValidation := false
  , topLevelFolderPath := "/"
  , requiredMetadataVersion := .Version2_0
  , versionFromMetadata := 2
  , metadataKeyForEncryption := c1key
  , metadataKeyForDecryption := c1key
  , keyChecksums := [calcSha256 c1key]
  , folderUsers := [c1u]
  , files := [c1f]
  , fileDropKey := []
  , fileDropCipherText := none
  , fileDropMetadataNonce := []
  , fileDropMetadataAuthTag := []
  , metadataNonce := []
  , migrationNeeded := false
  , isMetadataSetupFlag := true }

/-- The result of serializing `c1m` and re-parsing the produced document. -/
def c1reparsed : FolderMetadata :=
  match FolderMetadata.encryptedMetadata c1m [7] [] with
  | some doc => FolderMetadata.reparse c1m doc
  | none => c1m

/-- C1 counterexample: serializing the valid top-level `c1m` succeeds, yet
re-parsing the produced document loses the file entry `c1f` — its
mimetype and encryption key are dropped by the `folders` map — so the
re-parsed files list is not set-equal to `c1m`'s. -/
theorem c1_counterexample :
    (FolderMetadata.encryptedMetadata c1m [7] []).isSome = true ∧
    c1f ∈ c1m.files ∧
    c1f ∉ c1reparsed.files := by decide

/-- The document a successful `encryptedMetadata` run on a top-level
state produces (proof-factoring abbreviation; `c1_roundtrip_amended`
proves it equal to the source serializer's output). -/
def serializedDoc (M : FolderMetadata) (iv : ByteArr) : MetaDoc :=
  let payload : CipherDoc :=
    { files := (M.files.filter (fun f => !isDirMimetype f.mimetype)).map
        (fun f => (f.encryptedFilename,
          { key := f.encryptionKey
          , filename := f.originalFilename
          , mimetype := f.mimetype
          , initializationVector := f.initializationVector
          , authenticationTag := f.authenticationTag }))
    , folders := (M.files.filter (fun f => isDirMimetype f.mimetype)).map
        (fun f => (f.encryptedFilename, f.originalFilename))
    , keyChecksums := M.keyChecksums }
  let enc := gZipEncryptAndBase64Encode M.metadataKeyForEncryption payload iv
  { metadata := { cipherText := some enc, nonce := iv
                , authenticationTag := symTag enc }
  , metadataObjVersion := none
  , docVersion := some M.requiredMetadataVersionNumeric
  , users := M.folderUsers
  , filedrop := M.fileDropCipherText.map (fun c =>
      { cipherText := some c
      , nonce := M.fileDropMetadataNonce
      , authenticationTag := M.fileDropMetadataAuthTag })
  , legacyMetadataKey := none
  , legacyMetadataKeys := []
  , legacyFiles := []
  , legacyChecksum := []
  , legacyMetadataKeyText := [] }

/-- C1 amended: the round-trip law holds for a valid top-level
version-2.0 `FolderMetadata` whose key material checks out, whose user
ids, key checksums and encrypted filenames are duplicate-free, whose
files carry non-empty original names, and whose directory entries carry
no mimetype, key, IV or tag — the extra provisos `c1_counterexample`
shows are necessary: serialization succeeds and the re-parsed document's
files are set-equal to M's while folderUsers and keyChecksums are
recovered exactly. -/
theorem c1_roundtrip_amended (M : FolderMetadata) (u0 : FolderUser)
    (iv freshKey : ByteArr)
    (hTop : M.topLevelFolderPath = "/")
    (hReq : M.requiredMetadataVersion = RequiredMetadataVersion.Version2_0)
    (hKey : M.metadataKeyForEncryption ≠ [])
    (hKeyLen : metadataKeySize ≤ M.metadataKeyForEncryption.length)
    (hCk : calcSha256 (M.metadataKeyForEncryption.take metadataKeySize)
      ∈ M.keyChecksums)
    (hCkNE : M.keyChecksums ≠ [])
    (hCkAll : ∀ c ∈ M.keyChecksums, ¬ c = [])
    (hCkNodup : M.keyChecksums.Nodup)
    (hUsers : M.folderUsers ≠ [])
    (hUids : (M.folderUsers.map FolderUser.userId).Nodup)
    (hLookup : usersLookup M.folderUsers M.accountDavUser = some u0)
    (hWrap : u0.encryptedMetadataKey
      = AsymCipher.wrap M.accountPubKey M.metadataKeyForEncryption)
    (hFnames : (M.files.map EncryptedFile.encryptedFilename).Nodup)
    (hForig : ∀ f ∈ M.files, ¬ f.originalFilename = "")
    (hDir : ∀ f ∈ M.files, isDirMimetype f.mimetype = true →
      f.mimetype = "" ∧ f.encryptionKey = [] ∧ f.initializationVector = []
        ∧ f.authenticationTag = []) :
    (roundTrip M iv freshKey).isSome = true ∧
    ∀ m2, roundTrip M iv freshKey = some m2 →
      (∀ f, f ∈ m2.files ↔ f ∈ M.files) ∧
      m2.folderUsers = M.folderUsers ∧
      m2.keyChecksums = M.keyChecksums := by
  have hTopB : M.isTopLevelFolder = true := by
    simp [FolderMetadata.isTopLevelFolder, hTop]
  have hUsersB : M.folderUsers.isEmpty = false := by
    cases hM : M.folderUsers with
    | nil => exact absurd hM hUsers
    | cons a l => rfl
  have hKeyB : M.metadataKeyForEncryption.isEmpty = false := by
    cases hK : M.metadataKeyForEncryption with
    | nil => exact absurd hK hKey
    | cons a l => rfl
  have hCkB : M.keyChecksums.isEmpty = false := by
    cases hC : M.keyChecksums with
    | nil => exact absurd hC hCkNE
    | cons a l => rfl
  have hff := encFilesFold M.files ([], []) hFnames (by simp) (by simp)
  have hEnc : M.encryptedMetadata iv freshKey = some (serializedDoc M iv) := by
    unfold FolderMetadata.encryptedMetadata serializedDoc gZipEncryptAndBase64Encode
    cases hFD : M.fileDropCipherText with
    | none => simp [hTopB, hUsersB, hKeyB, hCkB, hff, hFD]
    | some c => simp [hTopB, hUsersB, hKeyB, hCkB, hff, hFD]
  have hRT : roundTrip M iv freshKey = some (M.reparse (serializedDoc M iv)) := by
    unfold roundTrip
    rw [hEnc]
    rfl
  have hV1 : ¬ ((2 : ℚ) < ratSixFifths) := by decide
  have hV2 : ¬ ((2 : ℚ) < 2) := by decide
  have hJ2 : jsonToInt 2 = 2 := by decide
  have hNum : M.requiredMetadataVersionNumeric = 2 := by
    simp [FolderMetadata.requiredMetadataVersionNumeric, hReq]
  have hsetup : M.reparse (serializedDoc M iv)
      = FolderMetadata.setupCurrentMetadata
          { accountDavUser := M.accountDavUser
          , accountPubKey := M.accountPubKey
          , accountMnemonic := M.accountMnemonic
          , accountSkipChecksumValidation := M.accountSkipChecksumValidation
          , topLevelFolderPath := "/"
          , requiredMetadataVersion := RequiredMetadataVersion.Version2_0
          , versionFromMetadata := 2
          , metadataKeyForEncryption := []
          , metadataKeyForDecryption := []
          , keyChecksums := []
          , folderUsers := []
          , files := []
          , fileDropKey := []
          , fileDropCipherText := none
          , fileDropMetadataNonce := []
          , fileDropMetadataAuthTag := []
          , metadataNonce := []
          , migrationNeeded := false
          , isMetadataSetupFlag := false } (serializedDoc M iv) := by
    unfold FolderMetadata.reparse FolderMetadata.setupExistingMetadata
      FolderMetadata.setupVersionFromExistingMetadata FolderMetadata.initialState
    rw [show (serializedDoc M iv).metadataObjVersion = none from rfl,
        show (serializedDoc M iv).docVersion = some M.requiredMetadataVersionNumeric
          from rfl, hNum]
    simp [FolderMetadata.metadataVersion, RequiredMetadataVersion.toIdx,
      hV1, hV2, hJ2]
  have hfu : M.folderUsers.foldl usersInsert ([] : List FolderUser)
      = M.folderUsers := by
    rw [usersInsert_foldl M.folderUsers [] hUids (by simp)]
    simp
  have hkc : M.keyChecksums.foldl
      (fun s c => if !c.isEmpty then kinsert s c else s) ([] : List ByteArr)
      = M.keyChecksums := by
    rw [kinsert_foldl M.keyChecksums [] hCkNodup hCkAll (by simp)]
    simp
  have hContains : M.keyChecksums.contains
      (calcSha256 (M.metadataKeyForEncryption.take metadataKeySize)) = true := by
    simpa using hCk
  have hLenB : ¬ (M.metadataKeyForEncryption.length < metadataKeySize) :=
    Nat.not_lt.mpr hKeyLen
  have hdecKey : decryptData M.accountPubKey u0.encryptedMetadataKey
      = M.metadataKeyForEncryption := by
    rw [hWrap]
    simp [decryptData]
  have hpf : ((M.files.filter (fun f => !isDirMimetype f.mimetype)).map
      (fun f => (f.encryptedFilename,
        ({ key := f.encryptionKey
         , filename := f.originalFilename
         , mimetype := f.mimetype
         , initializationVector := f.initializationVector
         , authenticationTag := f.authenticationTag } : FileJson)))).foldl
        (fun fs kv =>
          let pf := parseEncryptedFileFromJson kv.1 kv.2
          if !pf.originalFilename.isEmpty then fs ++ [pf] else fs) []
      = M.files.filter (fun f => !isDirMimetype f.mimetype) := by
    rw [parseFilesFold (M.files.filter (fun f => !isDirMimetype f.mimetype)) []
      (fun f hf => ⟨hForig f (List.mem_filter.mp hf).1,
        by simpa using (List.mem_filter.mp hf).2⟩)]
    simp
  have hfo : ((M.files.filter (fun f => isDirMimetype f.mimetype)).map
      (fun f => (f.encryptedFilename, f.originalFilename))).foldl
        (fun fs kv =>
          if !kv.2.isEmpty then
            fs ++ [{ EncryptedFile.default with
                       encryptedFilename := kv.1, originalFilename := kv.2 }]
          else fs) (M.files.filter (fun f => !isDirMimetype f.mimetype))
      = M.files.filter (fun f => !isDirMimetype f.mimetype)
        ++ M.files.filter (fun f => isDirMimetype f.mimetype) :=
    folderFold (M.files.filter (fun f => isDirMimetype f.mimetype))
      (M.files.filter (fun f => !isDirMimetype f.mimetype))
      (fun f hf => ⟨hForig f (List.mem_filter.mp hf).1,
        hDir f (List.mem_filter.mp hf).1 (List.mem_filter.mp hf).2⟩)
  simp at hkc hpf hfo
  have hfields : (FolderMetadata.setupCurrentMetadata
          { accountDavUser := M.accountDavUser
          , accountPubKey := M.accountPubKey
          , accountMnemonic := M.accountMnemonic
          , accountSkipChecksumValidation := M.accountSkipChecksumValidation
          , topLevelFolderPath := "/"
          , requiredMetadataVersion := RequiredMetadataVersion.Version2_0
          , versionFromMetadata := 2
          , metadataKeyForEncryption := []
          , metadataKeyForDecryption := []
          , keyChecksums := []
          , folderUsers := []
          , files := []
          , fileDropKey := []
          , fileDropCipherText := none
          , fileDropMetadataNonce := []
          , fileDropMetadataAuthTag := []
          , metadataNonce := []
          , migrationNeeded := false
          , isMetadataSetupFlag := false } (serializedDoc M iv)).files
        = M.files.filter (fun f => !isDirMimetype f.mimetype)
          ++ M.files.filter (fun f => isDirMimetype f.mimetype) ∧
      (FolderMetadata.setupCurrentMetadata
          { accountDavUser := M.accountDavUser
          , accountPubKey := M.accountPubKey
          , accountMnemonic := M.accountMnemonic
          , accountSkipChecksumValidation := M.accountSkipChecksumValidation
          , topLevelFolderPath := "/"
          , requiredMetadataVersion := RequiredMetadataVersion.Version2_0
          , versionFromMetadata := 2
          , metadataKeyForEncryption := []
          , metadataKeyForDecryption := []
          , keyChecksums := []
          , folderUsers := []
          , files := []
          , fileDropKey := []
          , fileDropCipherText := none
          , fileDropMetadataNonce := []
          , fileDropMetadataAuthTag := []
          , metadataNonce := []
          , migrationNeeded := false
          , isMetadataSetupFlag := false } (serializedDoc M iv)).folderUsers
        = M.folderUsers ∧
      (FolderMetadata.setupCurrentMetadata
          { accountDavUser := M.accountDavUser
          , accountPubKey := M.accountPubKey
          , accountMnemonic := M.accountMnemonic
          , accountSkipChecksumValidation := M.accountSkipChecksumValidation
          , topLevelFolderPath := "/"
          , requiredMetadataVersion := RequiredMetadataVersion.Version2_0
          , versionFromMetadata := 2
          , metadataKeyForEncryption := []
          , metadataKeyForDecryption := []
          , keyChecksums := []
          , folderUsers := []
          , files := []
          , fileDropKey := []
          , fileDropCipherText := none
          , fileDropMetadataNonce := []
          , fileDropMetadataAuthTag := []
          , metadataNonce := []
          , migrationNeeded := false
          , isMetadataSetupFlag := false } (serializedDoc M iv)).keyChecksums
        = M.keyChecksums := by
    unfold FolderMetadata.setupCurrentMetadata serializedDoc
      gZipEncryptAndBase64Encode FolderMetadata.verifyMetadataKey
    simp [FolderMetadata.isTopLevelFolder, hUsersB, hfu, hLookup, hdecKey, hKeyB,
      base64DecodeDecryptAndGzipUnZip, hCkB, hkc, hV2, hLenB, hCk, hCkNE, hpf, hfo]
  refine ⟨?_, ?_⟩
  · rw [hRT]
    rfl
  · intro m2 hm2
    rw [hRT] at hm2
    obtain rfl := Option.some.inj hm2
    rw [hsetup]
    obtain ⟨hf1, hf2, hf3⟩ := hfields
    refine ⟨?_, hf2, hf3⟩
    intro f
    rw [hf1]
    constructor
    · intro hmem
      rcases List.mem_append.mp hmem with h1 | h2
      · exact (List.mem_filter.mp h1).1
      · exact (List.mem_filter.mp h2).1
    · intro hmem
      by_cases hdm : isDirMimetype f.mimetype = true
      · exact List.mem_append.mpr (Or.inr (List.mem_filter.mpr ⟨hmem, hdm⟩))
      · refine List.mem_append.mpr (Or.inl (List.mem_filter.mpr ⟨hmem, ?_⟩))
        have hdm2 : isDirMimetype f.mimetype = false := Bool.eq_false_iff.mpr hdm
        simp [hdm2]

/-- A regular file entry for the round-trip witness. -/
def c1wf : EncryptedFile :=
  { encryptedFilename := "encF"
  , originalFilename := "file.txt"
  , encryptionKey := [2]
  , initializationVector := [3]
  , authenticationTag := [4]
  , mimetype := "text/plain" }

/-- A minimal directory entry (no mimetype, key, IV or tag) for the
round-trip witness. -/
def c1wd : EncryptedFile :=
  { encryptedFilename := "encD"
  , originalFilename := "subdir"
  , encryptionKey := []
  , initializationVector := []
  , authenticationTag := []
  , mimetype := "" }

/-- `c1m` with one regular file and one minimal directory entry. -/
def c1wm : FolderMetadata := { c1m with files := [c1wf, c1wd] }

theorem c1_roundtrip_amended_witness :
    (roundTrip c1wm [8] []).isSome = true ∧
    ((roundTrip c1wm [8] []).getD c1wm).folderUsers = c1wm.folderUsers ∧
    ((roundTrip c1wm [8] []).getD c1wm).keyChecksums = c1wm.keyChecksums ∧
    (c1wf ∈ ((roundTrip c1wm [8] []).getD c1wm).files ↔ c1wf ∈ c1wm.files) ∧
    (c1wd ∈ ((roundTrip c1wm [8] []).getD c1wm).files ↔ c1wd ∈ c1wm.files) := by
  obtain ⟨h1, h2⟩ := c1_roundtrip_amended c1wm c1u [8] []
    (by decide) (by decide) (by decide) (by decide) (by decide) (by decide)
    (by decide) (by decide) (by decide) (by decide) (by decide) (by decide)
    (by decide) (by decide) (by decide)
  cases hm : roundTrip c1wm [8] [] with
  | none => rw [hm] at h1; cases h1
  | some m2 =>
    obtain ⟨hf, hu, hc⟩ := h2 m2 hm
    exact ⟨rfl, hu, hc, hf c1wf, hf c1wd⟩

end Desktop
